import Mathlib

/-!
Verification of the patchly delta engine (Rust) against its specification.

The Rust sources are shallowly embedded: byte sequences are lists of
naturals (each byte below 256), machine integers are naturals reduced
modulo two to the word size exactly where the code wraps, and fallible
operations return Option or Except.  Every definition mirrors the Rust
item of the same name; deviations are noted in the doc comment of the
definition concerned.
-/

namespace Patchly

/-- Modulus of the Adler-style rolling hash (src/diff/rolling_hash.rs). -/
def MODULUS : Nat := 65521

/-- FNV-1a 64-bit offset basis (src/format/patch_format.rs). -/
def FNV_OFFSET : Nat := 0xcbf29ce484222325

/-- FNV-1a 64-bit prime (src/format/patch_format.rs). -/
def FNV_PRIME : Nat := 0x100000001b3

/-- Two to the 64, the wrap-around bound of u64 arithmetic. -/
def U64 : Nat := 2 ^ 64

/-- The slice s[off .. off+len) of a byte list, as drop-then-take. -/
def slice (s : List Nat) (off len : Nat) : List Nat :=
  (s.drop off).take len

/-- calculate_hash from src/format/patch_format.rs: FNV-1a 64-bit over the
    whole input, with the wrapping multiplication modelled as mod 2^64. -/
def calculate_hash (data : List Nat) : Nat :=
  data.foldl (fun h b => ((h ^^^ b) * FNV_PRIME) % U64) FNV_OFFSET

/-- State of RollingHash (src/diff/rolling_hash.rs): the two running sums
    and the window size. -/
structure RollingHash where
  sum_a : Nat
  sum_b : Nat
  window_size : Nat
deriving Repr, DecidableEq

/-- RollingHash::new. -/
def RollingHash.new (window_size : Nat) : RollingHash :=
  { sum_a := 0, sum_b := 0, window_size := window_size }

/-- RollingHash::digest: (sum_b << 16) | sum_a. -/
def RollingHash.digest (h : RollingHash) : Nat :=
  (h.sum_b <<< 16) ||| h.sum_a

/-- The enumerate-fold inside RollingHash::hash_chunk: index i carries the
    weight window_size - i (Rust usize subtraction; all call sites keep
    i below the window size). -/
def hashChunkAux (w : Nat) : Nat → Nat → Nat → List Nat → Nat × Nat
  | _, a, b, [] => (a, b)
  | i, a, b, d :: rest =>
      hashChunkAux w (i + 1) ((a + d) % MODULUS) ((b + (w - i) * d) % MODULUS) rest

/-- RollingHash::hash_chunk: reset both sums to zero, fold the data, and
    return the updated state (the Rust method also returns the digest,
    recovered here as RollingHash.digest of the result). -/
def RollingHash.hash_chunk (h : RollingHash) (data : List Nat) : RollingHash :=
  let s := hashChunkAux h.window_size 0 0 0 data
  { sum_a := s.1, sum_b := s.2, window_size := h.window_size }

/-- RollingHash::roll: remove old, append new, in one O(1) update. -/
def RollingHash.roll (h : RollingHash) (old new : Nat) : RollingHash :=
  let a := (h.sum_a + MODULUS - old % MODULUS + new) % MODULUS
  let b := (h.sum_b + MODULUS - (h.window_size * old) % MODULUS + a) % MODULUS
  { sum_a := a, sum_b := b, window_size := h.window_size }

/-- The 32-bit weak hash of a block: digest of hash_chunk on a fresh hasher. -/
def weakHash (w : Nat) (data : List Nat) : Nat :=
  ((RollingHash.new w).hash_chunk data).digest

/-- k successive roll steps over s: step i removes s[i] and appends s[i+w],
    exactly the window advance of the find_matches scan. -/
def rollSteps (s : List Nat) (w : Nat) : Nat → RollingHash → RollingHash
  | 0, h => h
  | k + 1, h => ((rollSteps s w k h).roll (s.getD k 0) (s.getD (k + w) 0))

/-- Sum of a byte list, cast into the hash field ZMod MODULUS. -/
def zsum (l : List Nat) : ZMod MODULUS :=
  (l.map (Nat.cast : Nat → ZMod MODULUS)).sum

/-- Weighted sum of a byte list starting at enumeration index i: element
    at offset j gets weight w - (i + j), matching hashChunkAux. -/
def zweighted (w : Nat) : Nat → List Nat → ZMod MODULUS
  | _, [] => 0
  | i, d :: rest => ((w - i : Nat) : ZMod MODULUS) * (d : ZMod MODULUS) + zweighted w (i + 1) rest

lemma zsum_nil : zsum [] = 0 := rfl

lemma zsum_cons (d : Nat) (l : List Nat) : zsum (d :: l) = (d : ZMod MODULUS) + zsum l := by
  simp [zsum]

lemma zsum_append (l₁ l₂ : List Nat) : zsum (l₁ ++ l₂) = zsum l₁ + zsum l₂ := by
  simp [zsum]

lemma MODULUS_pos : 0 < MODULUS := by decide

lemma zweighted_append_singleton (w i : Nat) (l : List Nat) (x : Nat) :
    zweighted w i (l ++ [x]) =
      zweighted w i l + ((w - (i + l.length) : Nat) : ZMod MODULUS) * (x : ZMod MODULUS) := by
  induction l generalizing i with
  | nil => simp [zweighted]
  | cons d rest ih =>
      simp only [List.cons_append, zweighted, List.length_cons, List.append_eq]
      rw [ih (i + 1)]
      have h1 : i + 1 + rest.length = i + (rest.length + 1) := by omega
      rw [h1]
      ring

/-- Shifting the enumeration index by one subtracts the plain sum, as long
    as every weight is still positive. -/
lemma zweighted_shift (w : Nat) (l : List Nat) : ∀ i, i + l.length ≤ w →
    zweighted w i l = zweighted w (i + 1) l + zsum l := by
  induction l with
  | nil => intro i _; simp [zweighted, zsum_nil]
  | cons d rest ih =>
      intro i hi
      simp only [zweighted, zsum_cons, List.length_cons] at *
      have hw : w - i = (w - (i + 1)) + 1 := by omega
      rw [ih (i + 1) (by omega), hw]
      push_cast
      ring

lemma hashChunkAux_fst (w : Nat) (l : List Nat) : ∀ i a b,
    ((hashChunkAux w i a b l).1 : ZMod MODULUS) = (a : ZMod MODULUS) + zsum l := by
  induction l with
  | nil => intro i a b; simp [hashChunkAux, zsum_nil]
  | cons d rest ih =>
      intro i a b
      simp only [hashChunkAux, zsum_cons]
      rw [ih]
      rw [ZMod.natCast_mod]
      push_cast
      ring

lemma hashChunkAux_snd (w : Nat) (l : List Nat) : ∀ i a b,
    ((hashChunkAux w i a b l).2 : ZMod MODULUS) = (b : ZMod MODULUS) + zweighted w i l := by
  induction l with
  | nil => intro i a b; simp [hashChunkAux, zweighted]
  | cons d rest ih =>
      intro i a b
      simp only [hashChunkAux, zweighted]
      rw [ih]
      rw [ZMod.natCast_mod]
      push_cast
      ring

lemma hashChunkAux_lt (w : Nat) (l : List Nat) (hl : l ≠ []) : ∀ i a b,
    (hashChunkAux w i a b l).1 < MODULUS ∧ (hashChunkAux w i a b l).2 < MODULUS := by
  induction l with
  | nil => exact absurd rfl hl
  | cons d rest ih =>
      intro i a b
      simp only [hashChunkAux]
      by_cases hr : rest = []
      · subst hr
        simp only [hashChunkAux]
        exact ⟨Nat.mod_lt _ MODULUS_pos, Nat.mod_lt _ MODULUS_pos⟩
      · exact ih hr _ _ _

lemma roll_lt (h : RollingHash) (old new : Nat) :
    (h.roll old new).sum_a < MODULUS ∧ (h.roll old new).sum_b < MODULUS :=
  ⟨Nat.mod_lt _ MODULUS_pos, Nat.mod_lt _ MODULUS_pos⟩

/-- Two naturals below the modulus that agree in ZMod MODULUS are equal. -/
lemma eq_of_cast_eq {a b : Nat} (ha : a < MODULUS) (hb : b < MODULUS)
    (h : (a : ZMod MODULUS) = (b : ZMod MODULUS)) : a = b := by
  have hmod : a % MODULUS = b % MODULUS := (ZMod.natCast_eq_natCast_iff a b MODULUS).mp h
  rwa [Nat.mod_eq_of_lt ha, Nat.mod_eq_of_lt hb] at hmod

lemma cast_MODULUS_eq_zero : ((MODULUS : Nat) : ZMod MODULUS) = 0 :=
  ZMod.natCast_self MODULUS

lemma cast_sub_mod (x y : Nat) :
    ((x + MODULUS - y % MODULUS : Nat) : ZMod MODULUS)
      = (x : ZMod MODULUS) - (y : ZMod MODULUS) := by
  have h1 : y % MODULUS ≤ x + MODULUS := by
    have := Nat.mod_lt y MODULUS_pos
    omega
  rw [Nat.cast_sub h1, Nat.cast_add, ZMod.natCast_mod, ZMod.natCast_self]
  ring

lemma roll_sum_a_cast (h : RollingHash) (old nw : Nat) :
    ((h.roll old nw).sum_a : ZMod MODULUS)
      = (h.sum_a : ZMod MODULUS) - (old : ZMod MODULUS) + (nw : ZMod MODULUS) := by
  simp only [RollingHash.roll]
  rw [ZMod.natCast_mod, Nat.cast_add, cast_sub_mod]

lemma roll_sum_b_cast (h : RollingHash) (old nw : Nat) :
    ((h.roll old nw).sum_b : ZMod MODULUS)
      = (h.sum_b : ZMod MODULUS) - (h.window_size : ZMod MODULUS) * (old : ZMod MODULUS)
        + ((h.roll old nw).sum_a : ZMod MODULUS) := by
  simp only [RollingHash.roll]
  rw [ZMod.natCast_mod, Nat.cast_add, cast_sub_mod, ZMod.natCast_mod, Nat.cast_mul]

lemma seed_window (w : Nat) (l : List Nat) :
    ((RollingHash.new w).hash_chunk l).window_size = w := rfl

lemma seed_sum_a_cast (w : Nat) (l : List Nat) :
    (((RollingHash.new w).hash_chunk l).sum_a : ZMod MODULUS) = zsum l := by
  simpa using hashChunkAux_fst w l 0 0 0

lemma seed_sum_b_cast (w : Nat) (l : List Nat) :
    (((RollingHash.new w).hash_chunk l).sum_b : ZMod MODULUS) = zweighted w 0 l := by
  simpa using hashChunkAux_snd w l 0 0 0

lemma seed_lt (w : Nat) (l : List Nat) (hl : l ≠ []) :
    ((RollingHash.new w).hash_chunk l).sum_a < MODULUS ∧
      ((RollingHash.new w).hash_chunk l).sum_b < MODULUS :=
  hashChunkAux_lt w l hl 0 0 0

lemma RollingHash.eq_of_fields {x y : RollingHash} (ha : x.sum_a = y.sum_a)
    (hb : x.sum_b = y.sum_b) (hw : x.window_size = y.window_size) : x = y := by
  cases x; cases y; simp_all

lemma slice_length_of_le {s : List Nat} {off len : Nat} (h : off + len ≤ s.length) :
    (slice s off len).length = len := by
  simp [slice]
  omega

/-- Advancing the seeded window by one roll step lands on the state seeded
    over the window shifted by one. -/
lemma roll_step (s : List Nat) (w j : Nat) (hw : 1 ≤ w) (hj : j + 1 + w ≤ s.length) :
    ((RollingHash.new w).hash_chunk (slice s j w)).roll (s.getD j 0) (s.getD (j + w) 0)
      = (RollingHash.new w).hash_chunk (slice s (j + 1) w) := by
  have hjlt : j < s.length := by omega
  have hjwlt : j + w < s.length := by omega
  set t : List Nat := (s.drop (j + 1)).take (w - 1) with ht
  have tlen : t.length = w - 1 := by
    simp [ht]
    omega
  have hu : slice s j w = s.getD j 0 :: t := by
    have hdrop : s.drop j = s[j] :: s.drop (j + 1) := List.drop_eq_getElem_cons hjlt
    have hw1 : w = (w - 1) + 1 := by omega
    rw [slice, hdrop, hw1, List.take_succ_cons, List.getD_eq_getElem s 0 hjlt, ht]
  have hv : slice s (j + 1) w = t ++ [s.getD (j + w) 0] := by
    have hw1 : w = (w - 1) + 1 := by omega
    rw [slice, hw1, List.take_succ, ht]
    congr 1
    have hidx : w - 1 < (s.drop (j + 1)).length := by
      simp
      omega
    have hidxeq : j + (w - 1 + 1) = j + 1 + (w - 1) := by omega
    rw [List.getElem?_eq_getElem hidx]
    simp only [List.getElem_drop, Option.toList]
    rw [List.getD_eq_getElem s 0 (show j + (w - 1 + 1) < s.length by omega)]
    simp_rw [hidxeq]
  have hvne : slice s (j + 1) w ≠ [] := by
    rw [hv]
    simp
  have hune : slice s j w ≠ [] := by
    rw [hu]
    simp
  have hzu : zsum (slice s j w) = (s.getD j 0 : ZMod MODULUS) + zsum t := by
    rw [hu, zsum_cons]
  have hzv : zsum (slice s (j + 1) w) = zsum t + (s.getD (j + w) 0 : ZMod MODULUS) := by
    rw [hv, zsum_append]
    simp [zsum]
  have hwu : zweighted w 0 (slice s j w)
      = (w : ZMod MODULUS) * (s.getD j 0 : ZMod MODULUS) + zweighted w 1 t := by
    rw [hu]
    simp [zweighted]
  have hwv : zweighted w 0 (slice s (j + 1) w)
      = zweighted w 1 t + zsum t + (s.getD (j + w) 0 : ZMod MODULUS) := by
    rw [hv, zweighted_append_singleton]
    have h1 : w - (0 + t.length) = 1 := by omega
    rw [h1, zweighted_shift w t 0 (by omega)]
    push_cast
    ring
  have hacast : ((((RollingHash.new w).hash_chunk (slice s j w)).roll (s.getD j 0)
      (s.getD (j + w) 0)).sum_a : ZMod MODULUS)
      = (((RollingHash.new w).hash_chunk (slice s (j + 1) w)).sum_a : ZMod MODULUS) := by
    rw [roll_sum_a_cast, seed_sum_a_cast, seed_sum_a_cast, hzu, hzv]
    ring
  refine RollingHash.eq_of_fields ?_ ?_ rfl
  · exact eq_of_cast_eq (roll_lt _ _ _).1 (seed_lt w _ hvne).1 hacast
  · refine eq_of_cast_eq (roll_lt _ _ _).2 (seed_lt w _ hvne).2 ?_
    rw [roll_sum_b_cast, seed_sum_b_cast, seed_sum_b_cast, seed_window, hacast,
      seed_sum_a_cast, hwu, hwv, hzv]
    ring

lemma rollSteps_eq_seed (s : List Nat) (w : Nat) (hw : 1 ≤ w) :
    ∀ k, k + w ≤ s.length →
      rollSteps s w k ((RollingHash.new w).hash_chunk (s.take w))
        = (RollingHash.new w).hash_chunk (slice s k w)
  | 0, _ => by simp [rollSteps, slice]
  | k + 1, hk => by
      simp only [rollSteps]
      rw [rollSteps_eq_seed s w hw k (by omega)]
      exact roll_step s w k hw (by omega)

/-- C5: for every window size W at least one (with W * 255 fitting in u32),
    every byte sequence s and every k with k + W within s, seeding the
    rolling hash over s[0..W) and rolling k times (removing s[i], appending
    s[i+W]) yields the same 32-bit digest as seeding directly over
    s[k..k+W). -/
theorem C5_rolling_hash_identity (w k : Nat) (s : List Nat)
    (hw : 1 ≤ w) (hword : w * 255 < 2 ^ 32) (hbytes : ∀ b ∈ s, b < 256)
    (hlen : k + w ≤ s.length) :
    (rollSteps s w k ((RollingHash.new w).hash_chunk (s.take w))).digest
      = ((RollingHash.new w).hash_chunk ((s.drop k).take w)).digest := by
  rw [rollSteps_eq_seed s w hw k hlen]
  rfl

/-- Witness for C5 at W = 4, k = 2 on a concrete six-byte sequence. -/
theorem C5_rolling_hash_identity_witness :
    (rollSteps [10, 20, 30, 40, 50, 60] 4 2
        ((RollingHash.new 4).hash_chunk ([10, 20, 30, 40, 50, 60].take 4))).digest
      = ((RollingHash.new 4).hash_chunk (([10, 20, 30, 40, 50, 60].drop 2).take 4)).digest :=
  C5_rolling_hash_identity 4 2 [10, 20, 30, 40, 50, 60] (by decide) (by decide)
    (by decide) (by decide)

/-- Insert into a bucket map (model of HashMap entry(..).or_insert(Vec).push):
    append to the bucket of the key, creating the bucket if absent.  Only
    bucketGet is ever observed, so the list-of-pairs representation is
    interchangeable with the Rust hash map. -/
def bucketInsert {α : Type} (m : List (Nat × List α)) (key : Nat) (v : α) :
    List (Nat × List α) :=
  match m with
  | [] => [(key, [v])]
  | (k, vs) :: rest =>
      if k = key then (k, vs ++ [v]) :: rest else (k, vs) :: bucketInsert rest key v

/-- Bucket lookup (model of HashMap get, defaulting to the empty bucket). -/
def bucketGet {α : Type} (m : List (Nat × List α)) (key : Nat) : List α :=
  match m with
  | [] => []
  | (k, vs) :: rest => if k = key then vs else bucketGet rest key

/-- ChunkSignature (src/diff/matcher.rs). -/
structure ChunkSignature where
  offset : Nat
  weak_hash : Nat
deriving Repr, DecidableEq

abbrev SigMap := List (Nat × List ChunkSignature)

/-- The while loop of BlockMatcher::build_signatures.  The Rust loop runs
    while offset + chunk_size <= source.len(); for chunk_size = 0 it would
    never terminate, so the model only takes a step when 1 <= B. -/
def buildSignaturesAux (source : List Nat) (B : Nat) (offset : Nat) (m : SigMap) : SigMap :=
  if h : 1 ≤ B ∧ offset + B ≤ source.length then
    let block := slice source offset B
    let wh := weakHash B block
    buildSignaturesAux source B (offset + B) (bucketInsert m wh ⟨offset, wh⟩)
  else m
termination_by source.length - offset
decreasing_by omega

/-- BlockMatcher (src/diff/matcher.rs). -/
structure BlockMatcher where
  chunk_size : Nat
  signatures : SigMap
  source_data : List Nat

/-- BlockMatcher::new followed by build_signatures (which returns early
    when the source is shorter than one chunk). -/
def BlockMatcher.new (source : List Nat) (chunk_size : Nat) : BlockMatcher :=
  { chunk_size := chunk_size,
    signatures :=
      if source.length < chunk_size then [] else buildSignaturesAux source chunk_size 0 [],
    source_data := source }

/-- BlockMatch (src/diff/matcher.rs). -/
structure BlockMatch where
  source_offset : Nat
  target_offset : Nat
  length : Nat
deriving Repr, DecidableEq

/-- BlockMatcher::verify_match: byte comparison of the two chunks. -/
def BlockMatcher.verify_match (m : BlockMatcher) (source_offset : Nat)
    (target : List Nat) (target_offset : Nat) : Bool :=
  decide (slice m.source_data source_offset m.chunk_size
    = slice target target_offset m.chunk_size)

/-- The for loop over candidates in find_matches: first verified candidate
    wins (break). -/
def firstVerifiedMatch (m : BlockMatcher) (target : List Nat) (pos : Nat) :
    List ChunkSignature → Option Nat
  | [] => none
  | c :: rest =>
      if m.verify_match c.offset target pos then some c.offset
      else firstVerifiedMatch m target pos rest

/-- The scan loop of BlockMatcher::find_matches: check the current hash at
    pos, then advance by one byte, rolling the hash, until fewer than
    chunk_size bytes remain. -/
def findMatchesAux (m : BlockMatcher) (target : List Nat) (hasher : RollingHash)
    (currentHash : Nat) (pos : Nat) (acc : List BlockMatch) : List BlockMatch :=
  let acc1 :=
    match firstVerifiedMatch m target pos (bucketGet m.signatures currentHash) with
    | some off => acc ++ [⟨off, pos, m.chunk_size⟩]
    | none => acc
  if h : pos + 1 + m.chunk_size ≤ target.length then
    let hasher1 := hasher.roll (target.getD pos 0) (target.getD (pos + m.chunk_size) 0)
    findMatchesAux m target hasher1 hasher1.digest (pos + 1) acc1
  else acc1
termination_by target.length - pos
decreasing_by omega

/-- Insertion step of the model of Vec::sort_by_key on target_offset. -/
def insertByTargetOffset (x : BlockMatch) : List BlockMatch → List BlockMatch
  | [] => [x]
  | y :: ys =>
      if y.target_offset ≤ x.target_offset then y :: insertByTargetOffset x ys
      else x :: y :: ys

/-- Model of Vec::sort_by_key on target_offset (a stable sort; the claims
    depend only on the resulting order and membership). -/
def sortByTargetOffset : List BlockMatch → List BlockMatch
  | [] => []
  | x :: xs => insertByTargetOffset x (sortByTargetOffset xs)

/-- BlockMatcher::find_matches. -/
def BlockMatcher.find_matches (m : BlockMatcher) (target : List Nat) : List BlockMatch :=
  if target.length < m.chunk_size ∨ m.signatures = [] then []
  else
    let hasher := (RollingHash.new m.chunk_size).hash_chunk (target.take m.chunk_size)
    sortByTargetOffset (findMatchesAux m target hasher hasher.digest 0 [])

/-- The filtering loop of optimize_macthes: drop any match overlapping the
    previously kept one. -/
def optimizeAux (lastEnd : Nat) : List BlockMatch → List BlockMatch
  | [] => []
  | m :: rest =>
      if m.target_offset < lastEnd then optimizeAux lastEnd rest
      else m :: optimizeAux (m.target_offset + m.length) rest

/-- optimize_macthes from src/diff/patch.rs (name kept as in the source). -/
def optimize_macthes (ms : List BlockMatch) : List BlockMatch :=
  if ms.isEmpty then [] else optimizeAux 0 (sortByTargetOffset ms)

/-- Instruction (src/format/patch_format.rs). -/
inductive Instruction where
  | copy (offset : Nat) (length : Nat)
  | insert (data : List Nat)
deriving Repr, DecidableEq

/-- Patch (src/format/patch_format.rs). -/
structure Patch where
  chunk_size : Nat
  source_size : Nat
  source_hash : Nat
  target_size : Nat
  instructions : List Instruction
deriving Repr, DecidableEq

/-- Patch::new. -/
def Patch.new (chunk_size source_size source_hash target_size : Nat) : Patch :=
  ⟨chunk_size, source_size, source_hash, target_size, []⟩

/-- Patch::add_copy. -/
def Patch.add_copy (p : Patch) (offset length : Nat) : Patch :=
  { p with instructions := p.instructions ++ [.copy offset length] }

/-- Patch::add_insert: empty inserts are dropped. -/
def Patch.add_insert (p : Patch) (data : List Nat) : Patch :=
  if data.isEmpty then p else { p with instructions := p.instructions ++ [.insert data] }

/-- The for loop of generate_instructions. -/
def generateInstsLoop (target : List Nat) (p : Patch) (current_pos : Nat) :
    List BlockMatch → Nat × Patch
  | [] => (current_pos, p)
  | m :: rest =>
      let p1 := if current_pos < m.target_offset
                then p.add_insert (slice target current_pos (m.target_offset - current_pos))
                else p
      generateInstsLoop target (p1.add_copy m.source_offset m.length)
        (m.target_offset + m.length) rest

/-- generate_instructions from src/diff/patch.rs. -/
def generate_instructions (p : Patch) (target : List Nat) (ms : List BlockMatch) : Patch :=
  let r := generateInstsLoop target p 0 (optimize_macthes ms)
  if r.1 < target.length then r.2.add_insert (slice target r.1 (target.length - r.1)) else r.2

/-- generate_patch_with_chunk_size from src/diff/patch.rs. -/
def generate_patch_with_chunk_size (source target : List Nat) (chunk_size : Nat) : Patch :=
  let p := Patch.new chunk_size source.length (calculate_hash source) target.length
  if target.isEmpty then p
  else if source.length < chunk_size then p.add_insert target
  else
    let matcher := BlockMatcher.new source chunk_size
    let ms := matcher.find_matches target
    if ms.isEmpty then p.add_insert target
    else generate_instructions p target ms

/-- ValidationError (src/format/patch_format.rs). -/
inductive ValidationError where
  | sizeMismatch (expected actual : Nat)
  | hashMismatch (expected actual : Nat)
deriving Repr, DecidableEq

/-- Patch::validate_source: size first, then hash. -/
def Patch.validate_source (p : Patch) (source_size source_hash : Nat) :
    Except ValidationError Unit :=
  if source_size ≠ p.source_size then .error (.sizeMismatch p.source_size source_size)
  else if source_hash ≠ p.source_hash then .error (.hashMismatch p.source_hash source_hash)
  else .ok ()

/-- PatchError (src/diff/patch.rs). -/
inductive PatchError where
  | validationFailed (e : ValidationError)
  | copyOutOfBounds (instruction_index : Nat) (offset : Nat) (length : Nat) (source_len : Nat)
  | sizeMismatch (expected actual : Nat)
deriving Repr, DecidableEq

/-- The instruction loop of apply_patch: idx is the enumerate index, output
    the accumulated target bytes. -/
def applyLoop (source : List Nat) : List Instruction → Nat → List Nat →
    Except PatchError (List Nat)
  | [], _, output => .ok output
  | .copy offset length :: rest, idx, output =>
      if offset + length > source.length then
        .error (.copyOutOfBounds idx offset length source.length)
      else applyLoop source rest (idx + 1) (output ++ slice source offset length)
  | .insert data :: rest, idx, output => applyLoop source rest (idx + 1) (output ++ data)

/-- apply_patch from src/diff/patch.rs: validate the source, walk the
    instructions, check the final size. -/
def apply_patch (source : List Nat) (patch : Patch) : Except PatchError (List Nat) :=
  match patch.validate_source source.length (calculate_hash source) with
  | .error e => .error (.validationFailed e)
  | .ok _ =>
      match applyLoop source patch.instructions 0 [] with
      | .error e => .error e
      | .ok output =>
          if output.length ≠ patch.target_size then
            .error (.sizeMismatch patch.target_size output.length)
          else .ok output

/-- Bytes produced by one instruction when applied against a source. -/
def instrBytes (source : List Nat) : Instruction → List Nat
  | .copy offset length => slice source offset length
  | .insert data => data

/-- Bytes produced by an instruction list. -/
def instsBytes (source : List Nat) (l : List Instruction) : List Nat :=
  (l.map (instrBytes source)).flatten

/-- An instruction the apply loop accepts: COPY stays within the source. -/
def instrOk (source : List Nat) : Instruction → Prop
  | .copy offset length => offset + length ≤ source.length
  | .insert _ => True

lemma slice_append_slice (t : List Nat) {a b c : Nat} (hab : a ≤ b) (hbc : b ≤ c) :
    slice t a (b - a) ++ slice t b (c - b) = slice t a (c - a) := by
  have hc : c - a = (b - a) + (c - b) := by omega
  have h2 : a + (b - a) = b := by omega
  rw [slice, slice, slice, hc, List.take_add, List.drop_drop, h2]

lemma slice_all (t : List Nat) : slice t 0 t.length = t := by
  simp [slice]

lemma slice_nil_of_zero (t : List Nat) (a : Nat) : slice t a 0 = [] := by
  simp [slice]

lemma instsBytes_nil (source : List Nat) : instsBytes source [] = [] := rfl

lemma instsBytes_append (source : List Nat) (l₁ l₂ : List Instruction) :
    instsBytes source (l₁ ++ l₂) = instsBytes source l₁ ++ instsBytes source l₂ := by
  simp [instsBytes]

lemma instsBytes_single_insert (source : List Nat) (d : List Nat) :
    instsBytes source [.insert d] = d := by
  simp [instsBytes, instrBytes]

lemma instsBytes_single_copy (source : List Nat) (o l : Nat) :
    instsBytes source [.copy o l] = slice source o l := by
  simp [instsBytes, instrBytes]

lemma applyLoop_ok (source : List Nat) (l : List Instruction) :
    ∀ (idx : Nat) (output : List Nat), (∀ i ∈ l, instrOk source i) →
      applyLoop source l idx output = .ok (output ++ instsBytes source l) := by
  induction l with
  | nil => intro idx output _; simp [applyLoop, instsBytes]
  | cons i rest ih =>
      intro idx output h
      match i with
      | .copy o len =>
          have hok : o + len ≤ source.length := h (Instruction.copy o len) (by simp)
          simp only [applyLoop, instsBytes, List.map_cons, List.flatten_cons, instrBytes]
          rw [if_neg (by omega)]
          rw [ih (idx + 1) _ (fun j hj => h j (by simp [hj]))]
          simp [instsBytes, List.append_assoc]
      | .insert data =>
          simp only [applyLoop, instsBytes, List.map_cons, List.flatten_cons, instrBytes]
          rw [ih (idx + 1) _ (fun j hj => h j (by simp [hj]))]
          simp [instsBytes, List.append_assoc]

lemma applyLoop_err (source : List Nat) (off len : Nat) (post : List Instruction)
    (hoob : off + len > source.length) :
    ∀ (pre : List Instruction) (idx : Nat) (output : List Nat),
      (∀ i ∈ pre, instrOk source i) →
      applyLoop source (pre ++ .copy off len :: post) idx output
        = .error (.copyOutOfBounds (idx + pre.length) off len source.length) := by
  intro pre
  induction pre with
  | nil =>
      intro idx output _
      simp [applyLoop, if_pos hoob]
  | cons i rest ih =>
      intro idx output h
      match i with
      | .copy o l =>
          have hok : o + l ≤ source.length := h (Instruction.copy o l) (by simp)
          simp only [List.cons_append, applyLoop, List.append_eq]
          rw [if_neg (show ¬o + l > source.length by omega),
            ih (idx + 1) _ (fun j hj => h j (by simp [hj]))]
          simp only [List.length_cons]
          have hidx : idx + 1 + rest.length = idx + (rest.length + 1) := by omega
          rw [hidx]
      | .insert data =>
          simp only [List.cons_append, applyLoop, List.append_eq]
          rw [ih (idx + 1) _ (fun j hj => h j (by simp [hj]))]
          simp only [List.length_cons]
          have hidx : idx + 1 + rest.length = idx + (rest.length + 1) := by omega
          rw [hidx]

lemma firstVerifiedMatch_some (m : BlockMatcher) (target : List Nat) (pos : Nat) :
    ∀ (cs : List ChunkSignature) (off : Nat),
      firstVerifiedMatch m target pos cs = some off →
      slice m.source_data off m.chunk_size = slice target pos m.chunk_size := by
  intro cs
  induction cs with
  | nil => intro off h; simp [firstVerifiedMatch] at h
  | cons c rest ih =>
      intro off h
      simp only [firstVerifiedMatch] at h
      by_cases hv : m.verify_match c.offset target pos = true
      · rw [if_pos hv] at h
        cases h
        exact of_decide_eq_true hv
      · rw [if_neg hv] at h
        exact ih off h

/-- A verified, in-range match of length exactly the chunk size. -/
def MatchVer (source target : List Nat) (B : Nat) (x : BlockMatch) : Prop :=
  x.length = B ∧
    slice source x.source_offset x.length = slice target x.target_offset x.length ∧
    x.target_offset + x.length ≤ target.length ∧
    x.source_offset + x.length ≤ source.length

lemma findMatchesAux_mem (m : BlockMatcher) (target : List Nat) (hasher : RollingHash)
    (currentHash pos : Nat) (acc : List BlockMatch) (hB : 1 ≤ m.chunk_size)
    (hpos : pos + m.chunk_size ≤ target.length)
    (hacc : ∀ x ∈ acc, MatchVer m.source_data target m.chunk_size x) :
    ∀ x ∈ findMatchesAux m target hasher currentHash pos acc,
      MatchVer m.source_data target m.chunk_size x := by
  unfold findMatchesAux
  have hacc1 : ∀ (acc1 : List BlockMatch),
      (∀ x ∈ acc1, MatchVer m.source_data target m.chunk_size x) →
      ∀ x ∈ (if h : pos + 1 + m.chunk_size ≤ target.length then
              findMatchesAux m target
                (hasher.roll (target.getD pos 0) (target.getD (pos + m.chunk_size) 0))
                (hasher.roll (target.getD pos 0) (target.getD (pos + m.chunk_size) 0)).digest
                (pos + 1) acc1
             else acc1),
        MatchVer m.source_data target m.chunk_size x := by
    intro acc1 h1
    by_cases h : pos + 1 + m.chunk_size ≤ target.length
    · rw [dif_pos h]
      exact findMatchesAux_mem m target _ _ (pos + 1) acc1 hB (by omega) h1
    · rw [dif_neg h]
      exact h1
  cases hfv : firstVerifiedMatch m target pos (bucketGet m.signatures currentHash) with
  | none =>
      simp only [hfv]
      exact hacc1 acc hacc
  | some off =>
      simp only [hfv]
      refine hacc1 _ ?_
      intro x hx
      rcases List.mem_append.mp hx with hx1 | hx1
      · exact hacc x hx1
      · have hxeq : x = ⟨off, pos, m.chunk_size⟩ := by simpa using hx1
        subst hxeq
        have hs := firstVerifiedMatch_some m target pos _ off hfv
        refine ⟨rfl, hs, hpos, ?_⟩
        have h1 : (slice target pos m.chunk_size).length = m.chunk_size :=
          slice_length_of_le hpos
        have h2 : (slice m.source_data off m.chunk_size).length = m.chunk_size := by
          rw [hs, h1]
        simp only [slice, List.length_take, List.length_drop] at h2
        have h3 : m.chunk_size ≤ m.source_data.length - off := by
          have h4 := Nat.min_le_right m.chunk_size (m.source_data.length - off)
          rw [h2] at h4
          exact h4
        show off + m.chunk_size ≤ m.source_data.length
        omega
termination_by target.length - pos
decreasing_by omega

lemma insertByTargetOffset_mem (x : BlockMatch) :
    ∀ (l : List BlockMatch) (y : BlockMatch),
      y ∈ insertByTargetOffset x l → y = x ∨ y ∈ l := by
  intro l
  induction l with
  | nil =>
      intro y hy
      simp only [insertByTargetOffset] at hy
      exact Or.inl (by simpa using hy)
  | cons z zs ih =>
      intro y hy
      simp only [insertByTargetOffset] at hy
      by_cases hz : z.target_offset ≤ x.target_offset
      · rw [if_pos hz] at hy
        rcases List.mem_cons.mp hy with h1 | h1
        · exact Or.inr (by simp [h1])
        · rcases ih y h1 with h2 | h2
          · exact Or.inl h2
          · exact Or.inr (by simp [h2])
      · rw [if_neg hz] at hy
        rcases List.mem_cons.mp hy with h1 | h1
        · exact Or.inl h1
        · exact Or.inr h1

lemma sortByTargetOffset_mem :
    ∀ (l : List BlockMatch) (y : BlockMatch), y ∈ sortByTargetOffset l → y ∈ l := by
  intro l
  induction l with
  | nil => intro y hy; simpa [sortByTargetOffset] using hy
  | cons z zs ih =>
      intro y hy
      simp only [sortByTargetOffset] at hy
      rcases insertByTargetOffset_mem z _ y hy with h1 | h1
      · simp [h1]
      · simp [ih y h1]

lemma insertByTargetOffset_sorted (x : BlockMatch) :
    ∀ (l : List BlockMatch),
      l.Pairwise (fun a b => a.target_offset ≤ b.target_offset) →
      (insertByTargetOffset x l).Pairwise (fun a b => a.target_offset ≤ b.target_offset) := by
  intro l
  induction l with
  | nil => intro _; simp [insertByTargetOffset]
  | cons z zs ih =>
      intro hp
      rw [List.pairwise_cons] at hp
      simp only [insertByTargetOffset]
      by_cases hz : z.target_offset ≤ x.target_offset
      · rw [if_pos hz, List.pairwise_cons]
        refine ⟨?_, ih hp.2⟩
        intro y hy
        rcases insertByTargetOffset_mem x zs y hy with h1 | h1
        · rw [h1]; exact hz
        · exact hp.1 y h1
      · rw [if_neg hz, List.pairwise_cons]
        refine ⟨?_, List.pairwise_cons.mpr hp⟩
        intro y hy
        rcases List.mem_cons.mp hy with h1 | h1
        · rw [h1]; omega
        · have := hp.1 y h1
          omega

lemma sortByTargetOffset_sorted :
    ∀ (l : List BlockMatch),
      (sortByTargetOffset l).Pairwise (fun a b => a.target_offset ≤ b.target_offset) := by
  intro l
  induction l with
  | nil => simp [sortByTargetOffset]
  | cons z zs ih =>
      simp only [sortByTargetOffset]
      exact insertByTargetOffset_sorted z _ ih

/-- The non-overlap invariant of the optimize output: every kept match
    starts at or after lastEnd, and later matches follow suit after it. -/
def Chain2 : Nat → List BlockMatch → Prop
  | _, [] => True
  | lastEnd, m :: rest => lastEnd ≤ m.target_offset ∧ Chain2 (m.target_offset + m.length) rest

lemma optimizeAux_chain : ∀ (l : List BlockMatch) (e : Nat), Chain2 e (optimizeAux e l) := by
  intro l
  induction l with
  | nil => intro e; simp [optimizeAux, Chain2]
  | cons m rest ih =>
      intro e
      simp only [optimizeAux]
      by_cases hm : m.target_offset < e
      · rw [if_pos hm]; exact ih e
      · rw [if_neg hm]
        exact ⟨by omega, ih _⟩

lemma optimizeAux_mem : ∀ (l : List BlockMatch) (e : Nat) (x : BlockMatch),
    x ∈ optimizeAux e l → x ∈ l := by
  intro l
  induction l with
  | nil => intro e x hx; simpa [optimizeAux] using hx
  | cons m rest ih =>
      intro e x hx
      simp only [optimizeAux] at hx
      by_cases hm : m.target_offset < e
      · rw [if_pos hm] at hx
        exact List.mem_cons_of_mem _ (ih e x hx)
      · rw [if_neg hm] at hx
        rcases List.mem_cons.mp hx with h1 | h1
        · simp [h1]
        · exact List.mem_cons_of_mem _ (ih _ x h1)

lemma optimize_macthes_mem (ms : List BlockMatch) (x : BlockMatch)
    (hx : x ∈ optimize_macthes ms) : x ∈ ms := by
  unfold optimize_macthes at hx
  by_cases h : ms.isEmpty
  · rw [if_pos h] at hx; simp at hx
  · rw [if_neg h] at hx
    exact sortByTargetOffset_mem ms x (optimizeAux_mem _ 0 x hx)

lemma optimize_macthes_chain (ms : List BlockMatch) : Chain2 0 (optimize_macthes ms) := by
  unfold optimize_macthes
  by_cases h : ms.isEmpty
  · rw [if_pos h]; simp [Chain2]
  · rw [if_neg h]
    exact optimizeAux_chain _ 0

/-- The header fields of a patch, bundled. -/
def header (p : Patch) : Nat × Nat × Nat × Nat :=
  (p.chunk_size, p.source_size, p.source_hash, p.target_size)

@[simp] lemma header_add_copy (p : Patch) (o l : Nat) : header (p.add_copy o l) = header p := rfl

@[simp] lemma header_add_insert (p : Patch) (d : List Nat) : header (p.add_insert d) = header p := by
  unfold Patch.add_insert
  split <;> rfl

lemma add_insert_instructions_of_ne (p : Patch) (d : List Nat) (hd : d ≠ []) :
    p.add_insert d = { p with instructions := p.instructions ++ [.insert d] } := by
  unfold Patch.add_insert
  rw [if_neg (by simp [hd])]

lemma generateInstsLoop_spec (source target : List Nat) :
    ∀ (ms : List BlockMatch) (cur : Nat) (p : Patch),
      Chain2 cur ms →
      (∀ x ∈ ms, 1 ≤ x.length ∧
        slice source x.source_offset x.length = slice target x.target_offset x.length ∧
        x.target_offset + x.length ≤ target.length ∧
        x.source_offset + x.length ≤ source.length) →
      cur ≤ target.length →
      ∃ Δ, (generateInstsLoop target p cur ms).2
            = { p with instructions := p.instructions ++ Δ } ∧
        cur ≤ (generateInstsLoop target p cur ms).1 ∧
        (generateInstsLoop target p cur ms).1 ≤ target.length ∧
        (∀ i ∈ Δ, instrOk source i) ∧
        instsBytes source Δ
          = slice target cur ((generateInstsLoop target p cur ms).1 - cur) := by
  intro ms
  induction ms with
  | nil =>
      intro cur p _ _ hcur
      refine ⟨[], ?_, le_refl _, hcur, by simp, ?_⟩
      · simp [generateInstsLoop]
      · simp [generateInstsLoop, instsBytes, slice]
  | cons m rest ih =>
      intro cur p hchain hver hcur
      have hch : cur ≤ m.target_offset ∧ Chain2 (m.target_offset + m.length) rest := hchain
      obtain ⟨hm1, hm2, hm3, hm4⟩ := hver m (by simp)
      have hmt : m.target_offset ≤ target.length := by omega
      simp only [generateInstsLoop]
      set p1 := if cur < m.target_offset
          then p.add_insert (slice target cur (m.target_offset - cur)) else p with hp1def
      set gapd := (if cur < m.target_offset
          then [Instruction.insert (slice target cur (m.target_offset - cur))]
          else ([] : List Instruction)) with hgapdef
      have hg1 : p1 = { p with instructions := p.instructions ++ gapd } := by
        by_cases hlt : cur < m.target_offset
        · have hne : slice target cur (m.target_offset - cur) ≠ [] := by
            have hsl : (slice target cur (m.target_offset - cur)).length
                = m.target_offset - cur := slice_length_of_le (by omega)
            intro hc
            rw [hc] at hsl
            simp at hsl
            omega
          rw [hp1def, hgapdef, if_pos hlt, if_pos hlt, add_insert_instructions_of_ne p _ hne]
        · rw [hp1def, hgapdef, if_neg hlt, if_neg hlt]
          simp
      have hg2 : instsBytes source gapd = slice target cur (m.target_offset - cur) := by
        by_cases hlt : cur < m.target_offset
        · rw [hgapdef, if_pos hlt, instsBytes_single_insert]
        · rw [hgapdef, if_neg hlt]
          have h0 : m.target_offset - cur = 0 := by omega
          rw [h0, slice_nil_of_zero, instsBytes_nil]
      obtain ⟨Δr, hr1, hr2, hr3, hr4, hr5⟩ :=
        ih (m.target_offset + m.length) (p1.add_copy m.source_offset m.length)
          hch.2 (fun x hx => hver x (by simp [hx])) hm3
      refine ⟨gapd ++ [Instruction.copy m.source_offset m.length] ++ Δr, ?_, ?_, ?_, ?_, ?_⟩
      · rw [hr1, hg1]
        simp [Patch.add_copy, List.append_assoc]
      · omega
      · exact hr3
      · intro i hi
        rcases List.mem_append.mp hi with hi1 | hi1
        · rcases List.mem_append.mp hi1 with hi2 | hi2
          · by_cases hlt : cur < m.target_offset
            · rw [hgapdef, if_pos hlt] at hi2
              have : i = Instruction.insert (slice target cur (m.target_offset - cur)) := by
                simpa using hi2
              rw [this]
              trivial
            · rw [hgapdef, if_neg hlt] at hi2
              simp at hi2
          · have : i = Instruction.copy m.source_offset m.length := by simpa using hi2
            rw [this]
            exact hm4
        · exact hr4 i hi1
      · rw [instsBytes_append, instsBytes_append, hg2, instsBytes_single_copy, hm2, hr5]
        have e1 : slice target m.target_offset m.length
            = slice target m.target_offset ((m.target_offset + m.length) - m.target_offset) := by
          congr 1
          omega
        rw [e1, slice_append_slice target hch.1 (by omega),
          slice_append_slice target (by omega) hr2]

lemma header_generateInstsLoop (target : List Nat) :
    ∀ (ms : List BlockMatch) (cur : Nat) (p : Patch),
      header (generateInstsLoop target p cur ms).2 = header p := by
  intro ms
  induction ms with
  | nil => intro cur p; simp [generateInstsLoop]
  | cons m rest ih =>
      intro cur p
      simp only [generateInstsLoop]
      rw [ih]
      rw [header_add_copy]
      by_cases hlt : cur < m.target_offset
      · rw [if_pos hlt, header_add_insert]
      · rw [if_neg hlt]

lemma header_generate_instructions (p : Patch) (target : List Nat) (ms : List BlockMatch) :
    header (generate_instructions p target ms) = header p := by
  unfold generate_instructions
  by_cases h : (generateInstsLoop target p 0 (optimize_macthes ms)).1 < target.length
  · rw [if_pos h, header_add_insert, header_generateInstsLoop]
  · rw [if_neg h, header_generateInstsLoop]

lemma header_generate_patch (S T : List Nat) (B : Nat) :
    header (generate_patch_with_chunk_size S T B)
      = (B, S.length, calculate_hash S, T.length) := by
  have hnew : header (Patch.new B S.length (calculate_hash S) T.length)
      = (B, S.length, calculate_hash S, T.length) := rfl
  simp only [generate_patch_with_chunk_size]
  by_cases h1 : T.isEmpty
  · rw [if_pos h1]
    exact hnew
  · rw [if_neg h1]
    by_cases h2 : S.length < B
    · rw [if_pos h2, header_add_insert]
      exact hnew
    · rw [if_neg h2]
      by_cases h3 : ((BlockMatcher.new S B).find_matches T).isEmpty
      · rw [if_pos h3, header_add_insert]
        exact hnew
      · rw [if_neg h3, header_generate_instructions]
        exact hnew

lemma chunk_size_of_header {p : Patch} {a b c d : Nat} (h : header p = (a, b, c, d)) :
    p.chunk_size = a := by
  have := congrArg (fun x => x.1) h
  simpa [header] using this

lemma source_size_of_header {p : Patch} {a b c d : Nat} (h : header p = (a, b, c, d)) :
    p.source_size = b := by
  have := congrArg (fun x => x.2.1) h
  simpa [header] using this

lemma source_hash_of_header {p : Patch} {a b c d : Nat} (h : header p = (a, b, c, d)) :
    p.source_hash = c := by
  have := congrArg (fun x => x.2.2.1) h
  simpa [header] using this

lemma target_size_of_header {p : Patch} {a b c d : Nat} (h : header p = (a, b, c, d)) :
    p.target_size = d := by
  have := congrArg (fun x => x.2.2.2) h
  simpa [header] using this

lemma generate_instructions_spec (source target : List Nat) (p : Patch) (ms : List BlockMatch)
    (hver : ∀ x ∈ ms, 1 ≤ x.length ∧
      slice source x.source_offset x.length = slice target x.target_offset x.length ∧
      x.target_offset + x.length ≤ target.length ∧
      x.source_offset + x.length ≤ source.length) :
    ∃ Δ, generate_instructions p target ms
        = { p with instructions := p.instructions ++ Δ } ∧
      (∀ i ∈ Δ, instrOk source i) ∧
      instsBytes source Δ = target := by
  obtain ⟨Δ, h1, h2, h3, h4, h5⟩ :=
    generateInstsLoop_spec source target (optimize_macthes ms) 0 p
      (optimize_macthes_chain ms)
      (fun x hx => hver x (optimize_macthes_mem ms x hx))
      (Nat.zero_le _)
  unfold generate_instructions
  by_cases hfin : (generateInstsLoop target p 0 (optimize_macthes ms)).1 < target.length
  · rw [if_pos hfin]
    set fin := (generateInstsLoop target p 0 (optimize_macthes ms)).1 with hfindef
    have hne : slice target fin (target.length - fin) ≠ [] := by
      have hsl : (slice target fin (target.length - fin)).length = target.length - fin :=
        slice_length_of_le (by omega)
      intro hc
      rw [hc] at hsl
      simp at hsl
      omega
    rw [h1, add_insert_instructions_of_ne _ _ hne]
    refine ⟨Δ ++ [Instruction.insert (slice target fin (target.length - fin))], ?_, ?_, ?_⟩
    · simp [List.append_assoc]
    · intro i hi
      rcases List.mem_append.mp hi with hi1 | hi1
      · exact h4 i hi1
      · have : i = Instruction.insert (slice target fin (target.length - fin)) := by
          simpa using hi1
        rw [this]
        trivial
    · rw [instsBytes_append, instsBytes_single_insert, h5]
      rw [slice_append_slice target (Nat.zero_le fin) h3]
      have e2 : target.length - 0 = target.length := by omega
      rw [e2, slice_all]
  · rw [if_neg hfin]
    have hfe : (generateInstsLoop target p 0 (optimize_macthes ms)).1 = target.length := by
      omega
    refine ⟨Δ, h1, h4, ?_⟩
    rw [h5, hfe]
    have e2 : target.length - 0 = target.length := by omega
    rw [e2, slice_all]

lemma apply_of_instructions (source : List Nat) (p : Patch)
    (hsz : p.source_size = source.length) (hh : p.source_hash = calculate_hash source)
    (hok : ∀ i ∈ p.instructions, instrOk source i)
    (hlen : (instsBytes source p.instructions).length = p.target_size) :
    apply_patch source p = .ok (instsBytes source p.instructions) := by
  unfold apply_patch Patch.validate_source
  rw [if_neg (by omega), if_neg (by omega)]
  rw [applyLoop_ok source p.instructions 0 [] hok]
  simp [hlen]

lemma find_matches_ver (source : List Nat) (B : Nat) (target : List Nat) (hB : 1 ≤ B) :
    ∀ x ∈ (BlockMatcher.new source B).find_matches target, MatchVer source target B x := by
  intro x hx
  unfold BlockMatcher.find_matches at hx
  by_cases hguard : target.length < (BlockMatcher.new source B).chunk_size
      ∨ (BlockMatcher.new source B).signatures = []
  · rw [if_pos hguard] at hx
    simp at hx
  · rw [if_neg hguard] at hx
    have hx2 := sortByTargetOffset_mem _ x hx
    have hcs : (BlockMatcher.new source B).chunk_size = B := rfl
    have hsd : (BlockMatcher.new source B).source_data = source := rfl
    have hlen : ¬target.length < B := fun hc => hguard (Or.inl hc)
    have hres := findMatchesAux_mem (BlockMatcher.new source B) target _ _ 0 []
      (by rw [hcs]; exact hB) (by rw [hcs]; omega) (by simp) x hx2
    rw [hcs, hsd] at hres
    exact hres

/-- C10: every match returned by BlockMatcher::find_matches has length
    exactly chunk_size, its source block is byte-for-byte equal to its
    target block, and the returned list is sorted by target offset. -/
theorem C10_block_matcher_matches_verified (source target : List Nat) (B : Nat) (hB : 1 ≤ B) :
    (∀ x ∈ (BlockMatcher.new source B).find_matches target,
        x.length = B ∧
          slice source x.source_offset B = slice target x.target_offset B) ∧
      ((BlockMatcher.new source B).find_matches target).Pairwise
        (fun a b => a.target_offset ≤ b.target_offset) := by
  constructor
  · intro x hx
    obtain ⟨h1, h2, h3, h4⟩ := find_matches_ver source B target hB x hx
    exact ⟨h1, by rw [← h1]; exact h2⟩
  · unfold BlockMatcher.find_matches
    by_cases hguard : target.length < (BlockMatcher.new source B).chunk_size
        ∨ (BlockMatcher.new source B).signatures = []
    · rw [if_pos hguard]
      simp
    · rw [if_neg hguard]
      exact sortByTargetOffset_sorted _

/-- Witness for C10 on a concrete source and target at chunk size 2. -/
theorem C10_block_matcher_matches_verified_witness :
    (∀ x ∈ (BlockMatcher.new [1, 2, 3, 4] 2).find_matches [3, 4, 1, 2],
        x.length = 2 ∧
          slice [1, 2, 3, 4] x.source_offset 2 = slice [3, 4, 1, 2] x.target_offset 2) ∧
      ((BlockMatcher.new [1, 2, 3, 4] 2).find_matches [3, 4, 1, 2]).Pairwise
        (fun a b => a.target_offset ≤ b.target_offset) :=
  C10_block_matcher_matches_verified [1, 2, 3, 4] [3, 4, 1, 2] 2 (by decide)

lemma generate_patch_instructions_spec (S T : List Nat) (B : Nat) (hB : 1 ≤ B) :
    (∀ i ∈ (generate_patch_with_chunk_size S T B).instructions, instrOk S i) ∧
      instsBytes S (generate_patch_with_chunk_size S T B).instructions = T := by
  simp only [generate_patch_with_chunk_size]
  by_cases h1 : T.isEmpty
  · rw [if_pos h1]
    have hTnil : T = [] := by simpa using h1
    subst hTnil
    exact ⟨by simp [Patch.new], by simp [Patch.new, instsBytes]⟩
  · rw [if_neg h1]
    have hT : T ≠ [] := by simpa using h1
    by_cases h2 : S.length < B
    · rw [if_pos h2, add_insert_instructions_of_ne _ _ hT]
      constructor
      · intro i hi
        have : i = Instruction.insert T := by simpa [Patch.new] using hi
        rw [this]
        trivial
      · simp [Patch.new, instsBytes, instrBytes]
    · rw [if_neg h2]
      by_cases h3 : ((BlockMatcher.new S B).find_matches T).isEmpty
      · rw [if_pos h3, add_insert_instructions_of_ne _ _ hT]
        constructor
        · intro i hi
          have : i = Instruction.insert T := by simpa [Patch.new] using hi
          rw [this]
          trivial
        · simp [Patch.new, instsBytes, instrBytes]
      · rw [if_neg h3]
        obtain ⟨Δ, g1, g2, g3⟩ := generate_instructions_spec S T
          (Patch.new B S.length (calculate_hash S) T.length)
          ((BlockMatcher.new S B).find_matches T)
          (fun x hx => by
            obtain ⟨a, b, c, d⟩ := find_matches_ver S B T hB x hx
            exact ⟨by omega, b, c, d⟩)
        rw [g1]
        constructor
        · intro i hi
          simp only [Patch.new, List.nil_append] at hi
          exact g2 i hi
        · simp only [Patch.new, List.nil_append]
          exact g3

/-- C1: for every block size B at least one and all byte sequences S, T,
    applying the generated patch to the same source reproduces the target
    exactly. -/
theorem C1_round_trip (S T : List Nat) (B : Nat) (hB : 1 ≤ B) :
    apply_patch S (generate_patch_with_chunk_size S T B) = .ok T := by
  have hdr := header_generate_patch S T B
  obtain ⟨hok, hbytes⟩ := generate_patch_instructions_spec S T B hB
  rw [apply_of_instructions S _ (source_size_of_header hdr) (source_hash_of_header hdr) hok
    (by rw [hbytes, target_size_of_header hdr]), hbytes]

/-- Witness for C1 on concrete eight-byte source and target at B = 4. -/
theorem C1_round_trip_witness :
    apply_patch [1, 2, 3, 4, 5, 6, 7, 8]
        (generate_patch_with_chunk_size [1, 2, 3, 4, 5, 6, 7, 8] [9, 9, 3, 4, 5, 6, 7, 7] 4)
      = .ok [9, 9, 3, 4, 5, 6, 7, 7] :=
  C1_round_trip [1, 2, 3, 4, 5, 6, 7, 8] [9, 9, 3, 4, 5, 6, 7, 7] 4 (by decide)

/-- C4: applying a patch built from S to any source differing from S in
    length or FNV-1a hash fails with the corresponding source-mismatch
    error, before any instruction is processed and producing no bytes. -/
theorem C4_source_mismatch (S Sp T : List Nat) (B : Nat)
    (h : Sp.length ≠ S.length ∨ calculate_hash Sp ≠ calculate_hash S) :
    apply_patch Sp (generate_patch_with_chunk_size S T B)
      = .error (.validationFailed
          (if Sp.length ≠ S.length then .sizeMismatch S.length Sp.length
           else .hashMismatch (calculate_hash S) (calculate_hash Sp))) := by
  have hdr := header_generate_patch S T B
  have hsz := source_size_of_header hdr
  have hh := source_hash_of_header hdr
  unfold apply_patch Patch.validate_source
  by_cases h1 : Sp.length ≠ S.length
  · rw [if_pos (show Sp.length ≠ (generate_patch_with_chunk_size S T B).source_size by
        rw [hsz]; exact h1), if_pos h1, hsz]
  · have h2 : calculate_hash Sp ≠ calculate_hash S := by tauto
    rw [if_neg (show ¬Sp.length ≠ (generate_patch_with_chunk_size S T B).source_size by
        rw [hsz]; exact h1),
      if_pos (show calculate_hash Sp ≠ (generate_patch_with_chunk_size S T B).source_hash by
        rw [hh]; exact h2), if_neg h1, hh]

/-- Witness for C4: a source of the wrong length is rejected with
    SizeMismatch. -/
theorem C4_source_mismatch_witness :
    apply_patch [1, 2] (generate_patch_with_chunk_size [1, 2, 3] [5] 4)
      = .error (.validationFailed
          (if ([1, 2] : List Nat).length ≠ ([1, 2, 3] : List Nat).length
           then .sizeMismatch ([1, 2, 3] : List Nat).length ([1, 2] : List Nat).length
           else .hashMismatch (calculate_hash [1, 2, 3]) (calculate_hash [1, 2]))) :=
  C4_source_mismatch [1, 2, 3] [1, 2] [5] 4 (Or.inl (by decide))

lemma apply_patch_oob (source : List Nat) (p : Patch) (pre post : List Instruction)
    (off len : Nat)
    (hsz : p.source_size = source.length) (hh : p.source_hash = calculate_hash source)
    (hinsts : p.instructions = pre ++ .copy off len :: post)
    (hpre : ∀ i ∈ pre, instrOk source i)
    (hoob : off + len > source.length) :
    apply_patch source p = .error (.copyOutOfBounds pre.length off len source.length) := by
  unfold apply_patch Patch.validate_source
  rw [if_neg (by omega), if_neg (by omega), hinsts,
    applyLoop_err source off len post hoob pre 0 [] hpre, Nat.zero_add]

/-- BlockEntry (src/diff/block_index.rs). -/
structure BlockEntry where
  offset : Nat
  strong_hash : Nat
deriving Repr, DecidableEq

/-- BlockIndex (src/diff/block_index.rs): block size, the weak-hash bucket
    map, the running indexed byte count, and the retained partial tail. -/
structure BlockIndex where
  block_size : Nat
  index : List (Nat × List BlockEntry)
  bytes_indexed : Nat
  pending : List Nat
deriving Repr, DecidableEq

/-- BlockIndex::with_block_size. -/
def BlockIndex.with_block_size (block_size : Nat) : BlockIndex :=
  { block_size := block_size, index := [], bytes_indexed := 0, pending := [] }

/-- The while loop of BlockIndex::add_chunk over the combined pending and
    new data.  The Rust loop runs while offset + block_size <= data.len()
    and would never terminate for block_size = 0, so the model only takes
    a step when 1 <= B. -/
def processBlocksAux (B : Nat) (idx : List (Nat × List BlockEntry)) (bytesIndexed : Nat)
    (data : List Nat) : List (Nat × List BlockEntry) × Nat × List Nat :=
  if h : 1 ≤ B ∧ B ≤ data.length then
    let block := data.take B
    processBlocksAux B
      (bucketInsert idx (weakHash B block) ⟨bytesIndexed, calculate_hash block⟩)
      (bytesIndexed + B) (data.drop B)
  else (idx, bytesIndexed, data)
termination_by data.length
decreasing_by simp only [List.length_drop]; omega

/-- BlockIndex::add_chunk. -/
def BlockIndex.add_chunk (st : BlockIndex) (chunk : List Nat) : BlockIndex :=
  let data := st.pending ++ chunk
  let r := processBlocksAux st.block_size st.index st.bytes_indexed data
  { st with index := r.1, bytes_indexed := r.2.1, pending := r.2.2 }

/-- BlockIndex::finalize: discard the pending tail, return the total
    indexed byte count (the updated state is returned alongside, standing
    for the mutated receiver). -/
def BlockIndex.finalize (st : BlockIndex) : BlockIndex × Nat :=
  ({ st with pending := [] }, st.bytes_indexed)

/-- BlockIndex::lookup. -/
def BlockIndex.lookup (st : BlockIndex) (weak_hash : Nat) : List BlockEntry :=
  bucketGet st.index weak_hash

/-- The candidate scan inside BlockIndex::find_verified_match. -/
def findFirstStrong (target_strong : Nat) : List BlockEntry → Option Nat
  | [] => none
  | e :: rest =>
      if e.strong_hash = target_strong then some e.offset
      else findFirstStrong target_strong rest

/-- BlockIndex::find_verified_match: first entry under the weak hash whose
    stored strong hash equals the FNV-1a of the target block. -/
def BlockIndex.find_verified_match (st : BlockIndex) (weak_hash : Nat)
    (target_block : List Nat) : Option Nat :=
  let entries := st.lookup weak_hash
  if entries.isEmpty then none
  else findFirstStrong (calculate_hash target_block) entries

lemma bucketGet_bucketInsert {α : Type} (m : List (Nat × List α)) (k : Nat) (v : α) (q : Nat) :
    bucketGet (bucketInsert m k v) q
      = if q = k then bucketGet m q ++ [v] else bucketGet m q := by
  induction m with
  | nil =>
      by_cases hq : q = k
      · subst hq
        simp [bucketInsert, bucketGet]
      · have hqk : ¬k = q := fun h => hq (Eq.symm h)
        simp [bucketInsert, bucketGet, hq, hqk]
  | cons p rest ih =>
      obtain ⟨k1, vs⟩ := p
      simp only [bucketInsert]
      by_cases h1 : k1 = k
      · subst h1
        rw [if_pos rfl]
        simp only [bucketGet]
        by_cases hq : k1 = q
        · subst hq
          simp
        · have hq2 : ¬q = k1 := fun h => hq (Eq.symm h)
          simp [hq, hq2]
      · rw [if_neg h1]
        simp only [bucketGet]
        by_cases hq : k1 = q
        · subst hq
          simp [h1]
        · simp [hq, ih]

/-- Invariant tying an index state to the full byte stream fed so far. -/
def IndexInv (B : Nat) (full : List Nat) (st : BlockIndex) : Prop :=
  st.block_size = B ∧
  st.bytes_indexed % B = 0 ∧
  st.bytes_indexed + st.pending.length = full.length ∧
  st.pending = full.drop st.bytes_indexed ∧
  st.pending.length < B ∧
  (∀ wh, ∀ e ∈ st.lookup wh,
    e.offset % B = 0 ∧ e.offset + B ≤ st.bytes_indexed ∧
      e.strong_hash = calculate_hash (slice full e.offset B)) ∧
  (∀ wh, (st.lookup wh).Pairwise (fun a b => a.offset < b.offset))

lemma slice_append_left (l1 l2 : List Nat) (off len : Nat) (h : off + len ≤ l1.length) :
    slice (l1 ++ l2) off len = slice l1 off len := by
  rw [slice, slice, List.drop_append_of_le_length (by omega)]
  rw [List.take_append_of_le_length (by simp; omega)]

lemma processBlocksAux_inv (B : Nat) (hB : 1 ≤ B) (full : List Nat) :
    ∀ (data : List Nat) (idx : List (Nat × List BlockEntry)) (bytesIndexed : Nat),
      data = full.drop bytesIndexed →
      bytesIndexed + data.length = full.length →
      bytesIndexed % B = 0 →
      (∀ wh, ∀ e ∈ bucketGet idx wh,
        e.offset % B = 0 ∧ e.offset + B ≤ bytesIndexed ∧
          e.strong_hash = calculate_hash (slice full e.offset B)) →
      (∀ wh, (bucketGet idx wh).Pairwise (fun a b => a.offset < b.offset)) →
      (processBlocksAux B idx bytesIndexed data).2.2
          = full.drop (processBlocksAux B idx bytesIndexed data).2.1 ∧
        (processBlocksAux B idx bytesIndexed data).2.1
            + (processBlocksAux B idx bytesIndexed data).2.2.length = full.length ∧
        (processBlocksAux B idx bytesIndexed data).2.1 % B = 0 ∧
        (processBlocksAux B idx bytesIndexed data).2.2.length < B ∧
        (∀ wh, ∀ e ∈ bucketGet (processBlocksAux B idx bytesIndexed data).1 wh,
          e.offset % B = 0 ∧
            e.offset + B ≤ (processBlocksAux B idx bytesIndexed data).2.1 ∧
            e.strong_hash = calculate_hash (slice full e.offset B)) ∧
        (∀ wh, (bucketGet (processBlocksAux B idx bytesIndexed data).1 wh).Pairwise
          (fun a b => a.offset < b.offset)) := by
  intro data idx bytesIndexed hdata hlen hmod hent hpair
  rw [processBlocksAux]
  by_cases hg : 1 ≤ B ∧ B ≤ data.length
  · rw [dif_pos hg]
    have hblock : data.take B = slice full bytesIndexed B := by
      rw [hdata, slice]
    have hent2 : ∀ wh, ∀ e ∈ bucketGet
        (bucketInsert idx (weakHash B (data.take B))
          ⟨bytesIndexed, calculate_hash (data.take B)⟩) wh,
        e.offset % B = 0 ∧ e.offset + B ≤ bytesIndexed + B ∧
          e.strong_hash = calculate_hash (slice full e.offset B) := by
      intro wh e he
      rw [bucketGet_bucketInsert] at he
      by_cases hw : wh = weakHash B (data.take B)
      · rw [if_pos hw] at he
        rcases List.mem_append.mp he with h1 | h1
        · obtain ⟨a1, a2, a3⟩ := hent wh e h1
          exact ⟨a1, by omega, a3⟩
        · have he2 : e = ⟨bytesIndexed, calculate_hash (data.take B)⟩ := by simpa using h1
          subst he2
          refine ⟨hmod, le_refl _, ?_⟩
          show calculate_hash (data.take B) = calculate_hash (slice full bytesIndexed B)
          rw [hblock]
      · rw [if_neg hw] at he
        obtain ⟨a1, a2, a3⟩ := hent wh e he
        exact ⟨a1, by omega, a3⟩
    have hpair2 : ∀ wh, (bucketGet
        (bucketInsert idx (weakHash B (data.take B))
          ⟨bytesIndexed, calculate_hash (data.take B)⟩) wh).Pairwise
        (fun a b => a.offset < b.offset) := by
      intro wh
      rw [bucketGet_bucketInsert]
      by_cases hw : wh = weakHash B (data.take B)
      · rw [if_pos hw]
        rw [List.pairwise_append]
        refine ⟨hpair wh, by simp, ?_⟩
        intro a ha b hb
        have hb2 : b = (⟨bytesIndexed, calculate_hash (data.take B)⟩ : BlockEntry) := by
          simpa using hb
        obtain ⟨a1, a2, a3⟩ := hent wh a ha
        rw [hb2]
        show a.offset < bytesIndexed
        omega
      · rw [if_neg hw]
        exact hpair wh
    exact processBlocksAux_inv B hB full (data.drop B) _ (bytesIndexed + B)
      (by rw [hdata, List.drop_drop])
      (by simp only [List.length_drop]; omega)
      (by rw [Nat.add_mod_right]; exact hmod)
      hent2 hpair2
  · rw [dif_neg hg]
    have hBlen : data.length < B := by omega
    exact ⟨hdata, hlen, hmod, hBlen, hent, hpair⟩
termination_by data => data.length
decreasing_by simp only [List.length_drop]; omega

lemma add_chunk_inv {B : Nat} (hB : 1 ≤ B) {full : List Nat} {st : BlockIndex}
    (hinv : IndexInv B full st) (chunk : List Nat) :
    IndexInv B (full ++ chunk) (st.add_chunk chunk) := by
  obtain ⟨h1, h2, h3, h4, h5, h6, h7⟩ := hinv
  have hdata : st.pending ++ chunk = (full ++ chunk).drop st.bytes_indexed := by
    rw [h4, List.drop_append_of_le_length (by omega)]
  have hent : ∀ wh, ∀ e ∈ bucketGet st.index wh,
      e.offset % B = 0 ∧ e.offset + B ≤ st.bytes_indexed ∧
        e.strong_hash = calculate_hash (slice (full ++ chunk) e.offset B) := by
    intro wh e he
    obtain ⟨a1, a2, a3⟩ := h6 wh e he
    refine ⟨a1, a2, ?_⟩
    rw [slice_append_left full chunk e.offset B (by omega)]
    exact a3
  have := processBlocksAux_inv B hB (full ++ chunk) (st.pending ++ chunk)
    st.index st.bytes_indexed hdata
    (by simp only [List.length_append]; omega) h2 hent h7
  obtain ⟨i1, i2, i3, i4, i5, i6⟩ := this
  unfold IndexInv
  simp only [BlockIndex.add_chunk, BlockIndex.lookup]
  rw [h1]
  exact ⟨rfl, i3, i2, i1, i4, i5, i6⟩

lemma addChunks_inv {B : Nat} (hB : 1 ≤ B) :
    ∀ (chunks : List (List Nat)) (full : List Nat) (st : BlockIndex),
      IndexInv B full st →
      IndexInv B (full ++ chunks.flatten) (chunks.foldl BlockIndex.add_chunk st) := by
  intro chunks
  induction chunks with
  | nil => intro full st hinv; simpa using hinv
  | cons c cs ih =>
      intro full st hinv
      have h1 := ih (full ++ c) (st.add_chunk c) (add_chunk_inv hB hinv c)
      simpa [List.append_assoc] using h1

lemma with_block_size_inv (B : Nat) (hB : 1 ≤ B) :
    IndexInv B [] (BlockIndex.with_block_size B) := by
  refine ⟨rfl, by show 0 % B = 0; simp, rfl, rfl, ?_, ?_, ?_⟩
  · simpa [BlockIndex.with_block_size] using hB
  · intro wh e he
    simp [BlockIndex.lookup, BlockIndex.with_block_size, bucketGet] at he
  · intro wh
    simp [BlockIndex.lookup, BlockIndex.with_block_size, bucketGet]

/-- C9: after any sequence of add_chunk calls followed by finalize, every
    stored entry sits at a block-aligned offset strictly inside the indexed
    prefix, its strong hash is the FNV-1a of the B source bytes at that
    offset, buckets are in insertion order with ascending offsets, no
    partial tail block is indexed, and the total indexed byte count is a
    multiple of B. -/
theorem C9_block_index_invariants (B : Nat) (hB : 1 ≤ B) (chunks : List (List Nat)) :
    (∀ wh, ∀ e ∈ (chunks.foldl BlockIndex.add_chunk (BlockIndex.with_block_size B)).lookup wh,
        e.offset % B = 0 ∧
          e.offset + B
            ≤ ((chunks.foldl BlockIndex.add_chunk (BlockIndex.with_block_size B)).finalize).2 ∧
          e.strong_hash = calculate_hash (slice chunks.flatten e.offset B)) ∧
      (∀ wh, ((chunks.foldl BlockIndex.add_chunk (BlockIndex.with_block_size B)).lookup wh).Pairwise
        (fun a b => a.offset < b.offset)) ∧
      ((chunks.foldl BlockIndex.add_chunk (BlockIndex.with_block_size B)).finalize).2 % B = 0 ∧
      ((chunks.foldl BlockIndex.add_chunk (BlockIndex.with_block_size B)).finalize).2
        ≤ chunks.flatten.length ∧
      ((chunks.foldl BlockIndex.add_chunk (BlockIndex.with_block_size B)).finalize).1.pending
        = [] := by
  have hinv := addChunks_inv hB chunks [] (BlockIndex.with_block_size B)
    (with_block_size_inv B hB)
  rw [List.nil_append] at hinv
  obtain ⟨h1, h2, h3, h4, h5, h6, h7⟩ := hinv
  have hfin : ((chunks.foldl BlockIndex.add_chunk (BlockIndex.with_block_size B)).finalize).2
      = (chunks.foldl BlockIndex.add_chunk (BlockIndex.with_block_size B)).bytes_indexed := rfl
  refine ⟨?_, h7, h2, by rw [hfin]; omega, rfl⟩
  intro wh e he
  exact h6 wh e he

/-- Witness for C9 at B = 2 over two uneven chunks. -/
theorem C9_block_index_invariants_witness :
    (∀ wh, ∀ e ∈ ([[1, 2, 3], [4]].foldl BlockIndex.add_chunk
          (BlockIndex.with_block_size 2)).lookup wh,
        e.offset % 2 = 0 ∧
          e.offset + 2
            ≤ (([[1, 2, 3], [4]].foldl BlockIndex.add_chunk
                (BlockIndex.with_block_size 2)).finalize).2 ∧
          e.strong_hash
            = calculate_hash (slice ([[1, 2, 3], [4]] : List (List Nat)).flatten e.offset 2)) ∧
      (∀ wh, (([[1, 2, 3], [4]].foldl BlockIndex.add_chunk
          (BlockIndex.with_block_size 2)).lookup wh).Pairwise
        (fun a b => a.offset < b.offset)) ∧
      (([[1, 2, 3], [4]].foldl BlockIndex.add_chunk
          (BlockIndex.with_block_size 2)).finalize).2 % 2 = 0 ∧
      (([[1, 2, 3], [4]].foldl BlockIndex.add_chunk
          (BlockIndex.with_block_size 2)).finalize).2
        ≤ ([[1, 2, 3], [4]] : List (List Nat)).flatten.length ∧
      (([[1, 2, 3], [4]].foldl BlockIndex.add_chunk
          (BlockIndex.with_block_size 2)).finalize).1.pending = [] :=
  C9_block_index_invariants 2 (by decide) [[1, 2, 3], [4]]

/-- StreamingDiff (src/diff/streaming_diff.rs). -/
structure StreamingDiff where
  index : BlockIndex
  block_size : Nat
  hasher : RollingHash
  pending_insert : List Nat
  instructions : List Instruction
  target_position : Nat
  source_size : Nat
deriving Repr

/-- StreamingDiff::new. -/
def StreamingDiff.new (index : BlockIndex) (source_size : Nat) : StreamingDiff :=
  { index := index, block_size := index.block_size,
    hasher := RollingHash.new index.block_size,
    pending_insert := [], instructions := [], target_position := 0,
    source_size := source_size }

/-- The extend-last-INSERT-or-push step of try_match_block. -/
def pushInsertByte (insts : List Instruction) (b : Nat) : List Instruction :=
  match insts.getLast? with
  | some (.insert data) => insts.dropLast ++ [.insert (data ++ [b])]
  | _ => insts ++ [.insert [b]]

/-- StreamingDiff::try_match_block.  The Rust code emits a COPY for the
    first lookup entry with no strong-hash or byte verification; the model
    reads the offset field of that first entry.  (With an empty pending
    buffer and block size zero the Rust remove(0) would panic; that case
    returns the state unchanged and is never reached at block size one or
    more.) -/
def StreamingDiff.try_match_block (d : StreamingDiff) : StreamingDiff :=
  if d.pending_insert.length < d.block_size then d
  else
    let block := d.pending_insert.take d.block_size
    let hasher1 := d.hasher.hash_chunk block
    match d.index.lookup hasher1.digest with
    | entry :: _ =>
        { d with hasher := hasher1,
                 instructions := d.instructions ++ [.copy entry.offset d.block_size],
                 pending_insert := d.pending_insert.drop d.block_size,
                 target_position := d.target_position + d.block_size }
    | [] =>
        match d.pending_insert with
        | [] => d
        | byte :: rest =>
            { d with hasher := hasher1,
                     instructions := pushInsertByte d.instructions byte,
                     pending_insert := rest,
                     target_position := d.target_position + 1 }

lemma try_match_block_shrinks (d : StreamingDiff) (h1 : 1 ≤ d.block_size)
    (h2 : d.block_size ≤ d.pending_insert.length) :
    (d.try_match_block).pending_insert.length < d.pending_insert.length := by
  unfold StreamingDiff.try_match_block
  rw [if_neg (by omega)]
  cases hp : d.pending_insert with
  | nil => rw [hp] at h2; simp at h2; omega
  | cons byte rest =>
      rw [hp] at h2
      simp only [hp]
      cases hlk : d.index.lookup
          ((d.hasher.hash_chunk (List.take d.block_size (byte :: rest))).digest) with
      | cons entry tail =>
          simp only [hlk, List.length_drop, List.length_cons]
          omega
      | nil =>
          simp only [hlk, List.length_cons]
          omega

/-- The while loop of StreamingDiff::process_target_chunk; the Rust loop
    would not terminate for block_size = 0, so the model only takes a step
    when 1 <= block_size. -/
def processTargetLoop (d : StreamingDiff) : StreamingDiff :=
  if h : 1 ≤ d.block_size ∧ d.block_size ≤ d.pending_insert.length then
    processTargetLoop d.try_match_block
  else d
termination_by d.pending_insert.length
decreasing_by exact try_match_block_shrinks d h.1 h.2

/-- StreamingDiff::process_target_chunk. -/
def StreamingDiff.process_target_chunk (d : StreamingDiff) (chunk : List Nat) : StreamingDiff :=
  processTargetLoop { d with pending_insert := d.pending_insert ++ chunk }

/-- The drain loop of StreamingDiff::merge_inserts. -/
def mergeInsertsAux (merged : List Instruction) : List Instruction → List Instruction
  | [] => merged
  | instruction :: rest =>
      match merged.getLast?, instruction with
      | some (.insert existing), .insert nw =>
          mergeInsertsAux (merged.dropLast ++ [.insert (existing ++ nw)]) rest
      | _, _ => mergeInsertsAux (merged ++ [instruction]) rest

/-- StreamingDiff::finalize: flush the pending bytes into the trailing
    INSERT, merge consecutive INSERTs, return the instruction list. -/
def StreamingDiff.finalize (d : StreamingDiff) : List Instruction :=
  let insts :=
    if d.pending_insert.isEmpty then d.instructions
    else
      match d.instructions.getLast? with
      | some (.insert data) => d.instructions.dropLast ++ [.insert (data ++ d.pending_insert)]
      | _ => d.instructions ++ [.insert d.pending_insert]
  mergeInsertsAux [] insts

/-- C2 is violated by the code: StreamingDiff::try_match_block emits a
    COPY for the first weak-hash hit without any strong-hash or byte
    verification.  With block size 4, the source block [1,0,0,2] and the
    target block [0,0,3,0] collide on the Adler-style weak hash (both have
    sum_a = 3 and sum_b = 6), so the streaming diff emits COPY(0,4) and
    the concatenated instruction output reconstructs the source block
    [1,0,0,2] instead of the target [0,0,3,0]. -/
theorem C2_streaming_diff_unverified_copy :
    ((StreamingDiff.new (((BlockIndex.with_block_size 4).add_chunk [1, 0, 0, 2]).finalize).1
          4).process_target_chunk [0, 0, 3, 0]).finalize
        = [Instruction.copy 0 4] ∧
      instsBytes [1, 0, 0, 2]
          (((StreamingDiff.new (((BlockIndex.with_block_size 4).add_chunk
              [1, 0, 0, 2]).finalize).1 4).process_target_chunk [0, 0, 3, 0]).finalize)
        = [1, 0, 0, 2] ∧
      ([1, 0, 0, 2] : List Nat) ≠ [0, 0, 3, 0] := by
  have hidx : (((BlockIndex.with_block_size 4).add_chunk [1, 0, 0, 2]).finalize).1
      = { block_size := 4,
          index := [(weakHash 4 [1, 0, 0, 2],
            [{ offset := 0, strong_hash := calculate_hash [1, 0, 0, 2] }])],
          bytes_indexed := 4, pending := [] } := by
    simp only [BlockIndex.add_chunk, BlockIndex.finalize]
    rw [processBlocksAux, dif_pos (by decide), processBlocksAux, dif_neg (by decide)]
    decide
  have hrun : ((StreamingDiff.new (((BlockIndex.with_block_size 4).add_chunk
          [1, 0, 0, 2]).finalize).1 4).process_target_chunk [0, 0, 3, 0]).finalize
      = [Instruction.copy 0 4] := by
    rw [hidx]
    simp only [StreamingDiff.process_target_chunk, StreamingDiff.new]
    rw [processTargetLoop, dif_pos (by decide), processTargetLoop, dif_neg (by decide)]
    decide
  refine ⟨hrun, ?_, by decide⟩
  rw [hrun]
  decide

/-- k-byte little-endian encoding of v, modelling to_le_bytes of a k-byte
    machine integer. -/
def leBytes : Nat → Nat → List Nat
  | 0, _ => []
  | k + 1, v => v % 256 :: leBytes k (v / 256)

/-- Little-endian value of a byte list, modelling from_le_bytes. -/
def leVal : List Nat → Nat
  | [] => 0
  | b :: rest => b + 256 * leVal rest

/-- The magic bytes P T C H. -/
def MAGIC : List Nat := [80, 84, 67, 72]

/-- The 33-byte header: magic, version 1, chunk_size u32, source_size u64,
    source_hash u64, target_size u64, all little-endian (shared by
    Patch::serialize and the header write in PatchBuilder::flush_output). -/
def headerBytes (chunk_size source_size source_hash target_size : Nat) : List Nat :=
  MAGIC ++ [1] ++ leBytes 4 chunk_size ++ leBytes 8 source_size
    ++ leBytes 8 source_hash ++ leBytes 8 target_size

/-- Instruction encoding: 0x01 offset:u64 length:u32 for COPY,
    0x02 length:u32 data for INSERT. -/
def encodeInstruction : Instruction → List Nat
  | .copy offset length => 1 :: (leBytes 8 offset ++ leBytes 4 length)
  | .insert data => 2 :: (leBytes 4 data.length ++ data)

/-- Patch::serialize. -/
def Patch.serialize (p : Patch) : List Nat :=
  headerBytes p.chunk_size p.source_size p.source_hash p.target_size
    ++ (p.instructions.map encodeInstruction).flatten

/-- The header parse shared by Patch::deserialize and PatchMetadata::parse:
    verify magic and version, read the four header fields, return them
    with the remaining instruction bytes.  A length check failing models
    read_exact returning UnexpectedEof on the truncated header. -/
def parseHeader (l : List Nat) : Option (Nat × Nat × Nat × Nat × List Nat) :=
  if l.length < 4 then none
  else if l.take 4 ≠ MAGIC then none
  else if (l.drop 4).length < 1 then none
  else if (l.drop 4).take 1 ≠ [1] then none
  else if (l.drop 5).length < 4 then none
  else if (l.drop 9).length < 8 then none
  else if (l.drop 17).length < 8 then none
  else if (l.drop 25).length < 8 then none
  else some (leVal ((l.drop 5).take 4), leVal ((l.drop 9).take 8),
    leVal ((l.drop 17).take 8), leVal ((l.drop 25).take 8), l.drop 33)

/-- The instruction loop of Patch::deserialize: a clean stop at end of
    input, an error on an unknown tag or a truncated body.  For COPY the
    two read_exact calls (8 then 4 bytes) succeed exactly when 12 bytes
    remain; for INSERT, read_exact of the declared length fails when fewer
    bytes remain, which is the INSERT length overrun rejection. -/
def parseInstructionsE (l : List Nat) : Option (List Instruction) :=
  match l with
  | [] => some []
  | t :: rest =>
      if t = 1 then
        if 12 ≤ rest.length then
          match parseInstructionsE (rest.drop 12) with
          | some tail =>
              some (.copy (leVal (rest.take 8)) (leVal ((rest.drop 8).take 4)) :: tail)
          | none => none
        else none
      else if t = 2 then
        if 4 ≤ rest.length then
          if leVal (rest.take 4) ≤ (rest.drop 4).length then
            match parseInstructionsE ((rest.drop 4).drop (leVal (rest.take 4))) with
            | some tail => some (.insert ((rest.drop 4).take (leVal (rest.take 4))) :: tail)
            | none => none
          else none
        else none
      else none
termination_by l.length
decreasing_by
  · simp only [List.length_drop, List.length_cons]; omega
  · simp only [List.length_drop, List.length_cons]; omega

/-- ParsedInstruction (src/format/patch_format.rs). -/
inductive ParsedInstruction where
  | copy (offset : Nat) (length : Nat)
  | insert (patch_offset : Nat) (length : Nat)
deriving Repr, DecidableEq

/-- The instruction loop of PatchMetadata::parse, pos being the absolute
    cursor position in the patch data.  For INSERT the declared length is
    skipped by advancing the cursor; Cursor::set_position past the end is
    not an error, the next tag read simply hits end of input and the loop
    stops, so an overrunning INSERT is accepted. -/
def parseInstructionsZ (l : List Nat) (pos : Nat) : Option (List ParsedInstruction) :=
  match l with
  | [] => some []
  | t :: rest =>
      if t = 1 then
        if 12 ≤ rest.length then
          match parseInstructionsZ (rest.drop 12) (pos + 13) with
          | some tail =>
              some (.copy (leVal (rest.take 8)) (leVal ((rest.drop 8).take 4)) :: tail)
          | none => none
        else none
      else if t = 2 then
        if 4 ≤ rest.length then
          match parseInstructionsZ ((rest.drop 4).drop (leVal (rest.take 4)))
              (pos + 5 + leVal (rest.take 4)) with
          | some tail => some (.insert (pos + 5) (leVal (rest.take 4)) :: tail)
          | none => none
        else none
      else none
termination_by l.length
decreasing_by
  · simp only [List.length_drop, List.length_cons]; omega
  · simp only [List.length_drop, List.length_cons]; omega

/-- Patch::deserialize. -/
def Patch.deserialize (l : List Nat) : Option Patch :=
  match parseHeader l with
  | none => none
  | some (cs, ss, sh, ts, rest) =>
      match parseInstructionsE rest with
      | none => none
      | some insts => some ⟨cs, ss, sh, ts, insts⟩

/-- PatchMetadata (src/format/patch_format.rs). -/
structure PatchMetadata where
  chunk_size : Nat
  source_size : Nat
  source_hash : Nat
  target_size : Nat
  instructions : List ParsedInstruction
deriving Repr, DecidableEq

/-- PatchMetadata::parse: same header handling, zero-copy instruction
    parse starting at cursor position 33. -/
def PatchMetadata.parse (l : List Nat) : Option PatchMetadata :=
  match parseHeader l with
  | none => none
  | some (cs, ss, sh, ts, rest) =>
      match parseInstructionsZ rest 33 with
      | none => none
      | some insts => some ⟨cs, ss, sh, ts, insts⟩

lemma leBytes_length (k v : Nat) : (leBytes k v).length = k := by
  induction k generalizing v with
  | zero => rfl
  | succ k ih => simp [leBytes, ih]

lemma leVal_leBytes (k v : Nat) (h : v < 256 ^ k) : leVal (leBytes k v) = v := by
  induction k generalizing v with
  | zero =>
      simp [leBytes, leVal]
      omega
  | succ k ih =>
      simp only [leBytes, leVal]
      rw [ih (v / 256) (by
        have h2 : 256 ^ (k + 1) = 256 ^ k * 256 := by ring
        rw [h2] at h
        omega)]
      omega

lemma headerBytes_length (cs ss sh ts : Nat) : (headerBytes cs ss sh ts).length = 33 := by
  simp [headerBytes, MAGIC, leBytes_length]

lemma drop_add (l : List Nat) (m n : Nat) : l.drop (m + n) = (l.drop m).drop n := by
  rw [List.drop_drop]

lemma parseHeader_headerBytes (cs ss sh ts : Nat) (rest : List Nat)
    (hcs : cs < 2 ^ 32) (hss : ss < 2 ^ 64) (hsh : sh < 2 ^ 64) (hts : ts < 2 ^ 64) :
    parseHeader (headerBytes cs ss sh ts ++ rest) = some (cs, ss, sh, ts, rest) := by
  have hl : headerBytes cs ss sh ts ++ rest
      = MAGIC ++ ([1] ++ (leBytes 4 cs ++ (leBytes 8 ss ++ (leBytes 8 sh
          ++ (leBytes 8 ts ++ rest))))) := by
    simp [headerBytes, List.append_assoc]
  have hlen : (headerBytes cs ss sh ts ++ rest).length = 33 + rest.length := by
    simp [headerBytes_length]
  have d4 : (headerBytes cs ss sh ts ++ rest).drop 4
      = [1] ++ (leBytes 4 cs ++ (leBytes 8 ss ++ (leBytes 8 sh
          ++ (leBytes 8 ts ++ rest)))) := by
    rw [hl, List.drop_left' (by rfl)]
  have d5 : (headerBytes cs ss sh ts ++ rest).drop 5
      = leBytes 4 cs ++ (leBytes 8 ss ++ (leBytes 8 sh ++ (leBytes 8 ts ++ rest))) := by
    show (headerBytes cs ss sh ts ++ rest).drop (4 + 1) = _
    rw [drop_add, d4, List.drop_left' (by rfl)]
  have d9 : (headerBytes cs ss sh ts ++ rest).drop 9
      = leBytes 8 ss ++ (leBytes 8 sh ++ (leBytes 8 ts ++ rest)) := by
    show (headerBytes cs ss sh ts ++ rest).drop (5 + 4) = _
    rw [drop_add, d5, List.drop_left' (leBytes_length 4 cs)]
  have d17 : (headerBytes cs ss sh ts ++ rest).drop 17
      = leBytes 8 sh ++ (leBytes 8 ts ++ rest) := by
    show (headerBytes cs ss sh ts ++ rest).drop (9 + 8) = _
    rw [drop_add, d9, List.drop_left' (leBytes_length 8 ss)]
  have d25 : (headerBytes cs ss sh ts ++ rest).drop 25
      = leBytes 8 ts ++ rest := by
    show (headerBytes cs ss sh ts ++ rest).drop (17 + 8) = _
    rw [drop_add, d17, List.drop_left' (leBytes_length 8 sh)]
  have d33 : (headerBytes cs ss sh ts ++ rest).drop 33 = rest := by
    show (headerBytes cs ss sh ts ++ rest).drop (25 + 8) = _
    rw [drop_add, d25, List.drop_left' (leBytes_length 8 ts)]
  rw [parseHeader]
  rw [if_neg (by omega)]
  rw [if_neg (by rw [hl, List.take_left' (by rfl)]; simp)]
  rw [if_neg (by rw [d4]; simp)]
  rw [if_neg (by rw [d4, List.take_left' (by rfl)]; simp)]
  rw [if_neg (by rw [d5]; simp [leBytes_length])]
  rw [if_neg (by rw [d9]; simp [leBytes_length])]
  rw [if_neg (by rw [d17]; simp [leBytes_length])]
  rw [if_neg (by rw [d25]; simp [leBytes_length])]
  rw [d5, d9, d17, d25, d33,
    List.take_left' (leBytes_length 4 cs), List.take_left' (leBytes_length 8 ss),
    List.take_left' (leBytes_length 8 sh), List.take_left' (leBytes_length 8 ts),
    leVal_leBytes 4 cs (by norm_num at hcs ⊢; omega),
    leVal_leBytes 8 ss (by norm_num at hss ⊢; omega),
    leVal_leBytes 8 sh (by norm_num at hsh ⊢; omega),
    leVal_leBytes 8 ts (by norm_num at hts ⊢; omega)]

/-- The machine-integer bounds of the fields of an instruction: COPY
    carries a u64 offset and a u32 length, INSERT a u32-length data
    vector. -/
def InstWF : Instruction → Prop
  | .copy offset length => offset < 2 ^ 64 ∧ length < 2 ^ 32
  | .insert data => data.length < 2 ^ 32

lemma parseInstructionsE_encode (i : Instruction) (hwf : InstWF i) (l : List Nat) :
    parseInstructionsE (encodeInstruction i ++ l)
      = (parseInstructionsE l).map (fun tail => i :: tail) := by
  match i with
  | .copy offset length =>
      obtain ⟨h1, h2⟩ := hwf
      have hr : encodeInstruction (Instruction.copy offset length) ++ l
          = 1 :: (leBytes 8 offset ++ (leBytes 4 length ++ l)) := by
        simp [encodeInstruction, List.append_assoc]
      rw [hr, parseInstructionsE]
      rw [if_pos rfl]
      rw [if_pos (by simp [leBytes_length]; try omega)]
      rw [List.take_left' (leBytes_length 8 offset),
        List.drop_left' (leBytes_length 8 offset),
        List.take_left' (leBytes_length 4 length)]
      have hd : (leBytes 8 offset ++ (leBytes 4 length ++ l)).drop 12 = l := by
        show (leBytes 8 offset ++ (leBytes 4 length ++ l)).drop (8 + 4) = l
        rw [drop_add, List.drop_left' (leBytes_length 8 offset),
          List.drop_left' (leBytes_length 4 length)]
      rw [hd, leVal_leBytes 8 offset (by norm_num at h1 ⊢; omega),
        leVal_leBytes 4 length (by norm_num at h2 ⊢; omega)]
      cases parseInstructionsE l <;> simp
  | .insert data =>
      have h1 : data.length < 2 ^ 32 := hwf
      have hr : encodeInstruction (Instruction.insert data) ++ l
          = 2 :: (leBytes 4 data.length ++ (data ++ l)) := by
        simp [encodeInstruction, List.append_assoc]
      rw [hr, parseInstructionsE]
      rw [if_neg (by omega)]
      rw [if_pos rfl]
      rw [if_pos (by simp [leBytes_length]; try omega)]
      rw [List.take_left' (leBytes_length 4 data.length),
        List.drop_left' (leBytes_length 4 data.length),
        leVal_leBytes 4 data.length (by norm_num at h1 ⊢; omega)]
      rw [if_pos (by simp)]
      rw [List.take_left' rfl, List.drop_left' rfl]
      cases parseInstructionsE l <;> simp

lemma parseInstructionsE_encodeAll (insts : List Instruction)
    (hwf : ∀ i ∈ insts, InstWF i) (l : List Nat) :
    parseInstructionsE ((insts.map encodeInstruction).flatten ++ l)
      = (parseInstructionsE l).map (fun tail => insts ++ tail) := by
  induction insts with
  | nil =>
      simp only [List.map_nil, List.flatten_nil, List.nil_append]
      cases parseInstructionsE l <;> simp
  | cons i rest ih =>
      simp only [List.map_cons, List.flatten_cons, List.append_assoc]
      rw [parseInstructionsE_encode i (hwf i (by simp)) _,
        ih (fun j hj => hwf j (by simp [hj]))]
      cases parseInstructionsE l <;> simp

/-- The zero-copy images of a list of instructions serialized starting at
    cursor position pos. -/
def zEncoded : List Instruction → Nat → List ParsedInstruction
  | [], _ => []
  | .copy offset length :: rest, pos =>
      .copy offset length :: zEncoded rest (pos + 13)
  | .insert data :: rest, pos =>
      .insert (pos + 5) data.length :: zEncoded rest (pos + 5 + data.length)

lemma encodeInstruction_length (i : Instruction) :
    (encodeInstruction i).length
      = match i with
        | .copy _ _ => 13
        | .insert data => 5 + data.length := by
  match i with
  | .copy offset length => simp [encodeInstruction, leBytes_length]
  | .insert data => simp [encodeInstruction, leBytes_length]; omega

lemma parseInstructionsZ_encode (i : Instruction) (hwf : InstWF i) (l : List Nat) (pos : Nat) :
    parseInstructionsZ (encodeInstruction i ++ l) pos
      = (parseInstructionsZ l (pos + (encodeInstruction i).length)).map
          (fun tail => zEncoded [i] pos ++ tail) := by
  match i with
  | .copy offset length =>
      obtain ⟨h1, h2⟩ := hwf
      have hr : encodeInstruction (Instruction.copy offset length) ++ l
          = 1 :: (leBytes 8 offset ++ (leBytes 4 length ++ l)) := by
        simp [encodeInstruction, List.append_assoc]
      rw [hr, parseInstructionsZ]
      rw [if_pos rfl]
      rw [if_pos (by simp [leBytes_length]; try omega)]
      have hd : (leBytes 8 offset ++ (leBytes 4 length ++ l)).drop 12 = l := by
        show (leBytes 8 offset ++ (leBytes 4 length ++ l)).drop (8 + 4) = l
        rw [drop_add, List.drop_left' (leBytes_length 8 offset),
          List.drop_left' (leBytes_length 4 length)]
      rw [hd, List.take_left' (leBytes_length 8 offset),
        List.drop_left' (leBytes_length 8 offset),
        List.take_left' (leBytes_length 4 length),
        leVal_leBytes 8 offset (by norm_num at h1 ⊢; omega),
        leVal_leBytes 4 length (by norm_num at h2 ⊢; omega)]
      rw [encodeInstruction_length]
      cases parseInstructionsZ l (pos + 13) <;> simp [zEncoded]
  | .insert data =>
      have h1 : data.length < 2 ^ 32 := hwf
      have hr : encodeInstruction (Instruction.insert data) ++ l
          = 2 :: (leBytes 4 data.length ++ (data ++ l)) := by
        simp [encodeInstruction, List.append_assoc]
      rw [hr, parseInstructionsZ]
      rw [if_neg (by omega)]
      rw [if_pos rfl]
      rw [if_pos (by simp [leBytes_length]; try omega)]
      rw [List.take_left' (leBytes_length 4 data.length),
        List.drop_left' (leBytes_length 4 data.length),
        leVal_leBytes 4 data.length (by norm_num at h1 ⊢; omega),
        List.drop_left' rfl]
      rw [encodeInstruction_length]
      have hpe : pos + (5 + data.length) = pos + 5 + data.length := by omega
      rw [hpe]
      cases parseInstructionsZ l (pos + 5 + data.length) <;> simp [zEncoded]

lemma parseInstructionsZ_encodeAll (insts : List Instruction)
    (hwf : ∀ i ∈ insts, InstWF i) (l : List Nat) (pos : Nat) :
    parseInstructionsZ ((insts.map encodeInstruction).flatten ++ l) pos
      = (parseInstructionsZ l (pos + ((insts.map encodeInstruction).flatten).length)).map
          (fun tail => zEncoded insts pos ++ tail) := by
  induction insts generalizing pos with
  | nil =>
      simp only [List.map_nil, List.flatten_nil, List.nil_append, List.length_nil,
        Nat.add_zero]
      cases parseInstructionsZ l pos <;> simp [zEncoded]
  | cons i rest ih =>
      simp only [List.map_cons, List.flatten_cons, List.append_assoc]
      rw [parseInstructionsZ_encode i (hwf i (by simp)) _ pos,
        ih (fun j hj => hwf j (by simp [hj])) (pos + (encodeInstruction i).length)]
      have hplen : pos + (encodeInstruction i).length
            + ((rest.map encodeInstruction).flatten).length
          = pos + ((encodeInstruction i ++ (rest.map encodeInstruction).flatten).length) := by
        simp
        omega
      rw [hplen]
      cases hz : parseInstructionsZ l
          (pos + (encodeInstruction i ++ (rest.map encodeInstruction).flatten).length) <;>
        simp [hz]
      match i with
      | .copy offset length =>
          simp [zEncoded, encodeInstruction_length]
      | .insert data =>
          simp [zEncoded, encodeInstruction_length]
          rw [(by omega : pos + (5 + data.length) = pos + 5 + data.length)]

lemma parseInstructionsE_overrun (n : Nat) (data : List Nat)
    (hn : n < 2 ^ 32) (hd : data.length < n) :
    parseInstructionsE (2 :: (leBytes 4 n ++ data)) = none := by
  rw [parseInstructionsE]
  rw [if_neg (by omega)]
  rw [if_pos rfl]
  rw [if_pos (by simp [leBytes_length]; try omega)]
  rw [List.take_left' (leBytes_length 4 n), List.drop_left' (leBytes_length 4 n),
    leVal_leBytes 4 n (by norm_num at hn ⊢; omega)]
  rw [if_neg (by omega)]

lemma parseInstructionsZ_overrun (n : Nat) (data : List Nat) (pos : Nat)
    (hn : n < 2 ^ 32) (hd : data.length < n) :
    parseInstructionsZ (2 :: (leBytes 4 n ++ data)) pos = some [.insert (pos + 5) n] := by
  rw [parseInstructionsZ]
  rw [if_neg (by omega)]
  rw [if_pos rfl]
  rw [if_pos (by simp [leBytes_length]; try omega)]
  rw [List.take_left' (leBytes_length 4 n), List.drop_left' (leBytes_length 4 n),
    leVal_leBytes 4 n (by norm_num at hn ⊢; omega)]
  rw [List.drop_eq_nil_of_le (by omega)]
  rw [parseInstructionsZ]

lemma deserialize_none_of_bad_magic (l : List Nat) (hm : l.take 4 ≠ MAGIC) :
    Patch.deserialize l = none := by
  have hph : parseHeader l = none := by
    rw [parseHeader]
    by_cases h4 : l.length < 4
    · rw [if_pos h4]
    · rw [if_neg h4, if_pos hm]
  simp [Patch.deserialize, hph]

lemma deserialize_none_of_bad_version (l : List Nat) (hm : l.take 4 = MAGIC)
    (hv : (l.drop 4).take 1 ≠ [1]) : Patch.deserialize l = none := by
  have h4 : ¬l.length < 4 := by
    have hlen : (l.take 4).length = 4 := by rw [hm]; rfl
    simp at hlen
    omega
  have hph : parseHeader l = none := by
    rw [parseHeader, if_neg h4, if_neg (by simp [hm])]
    by_cases h1 : (l.drop 4).length < 1
    · rw [if_pos h1]
    · rw [if_neg h1, if_pos hv]
  simp [Patch.deserialize, hph]

/-- C7: deserialize is a left inverse of serialize on patches whose fields
    fit their machine-integer types; the serialized stream begins with the
    exactly-33-byte header magic P T C H, version 1, chunk_size u32,
    source_size u64, source_hash u64, target_size u64, all little-endian,
    followed by the 0x01/0x02-tagged instruction encodings with no
    terminator; and deserialize rejects any other magic or version byte. -/
theorem C7_serialize_round_trip (p : Patch)
    (hcs : p.chunk_size < 2 ^ 32) (hss : p.source_size < 2 ^ 64)
    (hsh : p.source_hash < 2 ^ 64) (hts : p.target_size < 2 ^ 64)
    (hwf : ∀ i ∈ p.instructions, InstWF i) :
    Patch.deserialize p.serialize = some p ∧
      p.serialize
        = (MAGIC ++ [1] ++ leBytes 4 p.chunk_size ++ leBytes 8 p.source_size
            ++ leBytes 8 p.source_hash ++ leBytes 8 p.target_size)
          ++ (p.instructions.map encodeInstruction).flatten ∧
      (MAGIC ++ [1] ++ leBytes 4 p.chunk_size ++ leBytes 8 p.source_size
          ++ leBytes 8 p.source_hash ++ leBytes 8 p.target_size).length = 33 ∧
      (∀ l : List Nat, l.take 4 ≠ MAGIC → Patch.deserialize l = none) ∧
      (∀ l : List Nat, l.take 4 = MAGIC → (l.drop 4).take 1 ≠ [1] →
        Patch.deserialize l = none) := by
  refine ⟨?_, rfl, headerBytes_length p.chunk_size p.source_size p.source_hash p.target_size,
    deserialize_none_of_bad_magic, deserialize_none_of_bad_version⟩
  have hph := parseHeader_headerBytes p.chunk_size p.source_size p.source_hash p.target_size
    ((p.instructions.map encodeInstruction).flatten) hcs hss hsh hts
  have hE : parseInstructionsE ((p.instructions.map encodeInstruction).flatten)
      = some p.instructions := by
    have h1 := parseInstructionsE_encodeAll p.instructions hwf []
    rw [List.append_nil] at h1
    rw [h1]
    simp [parseInstructionsE]
  simp [Patch.deserialize, Patch.serialize, hph, hE]

/-- A concrete sample patch used by the C7 witness. -/
def samplePatch : Patch :=
  ⟨4, 2, 5, 3, [Instruction.copy 0 2, Instruction.insert [7]]⟩

/-- Witness for C7 at the concrete sample patch. -/
theorem C7_serialize_round_trip_witness :
    Patch.deserialize samplePatch.serialize = some samplePatch ∧
      samplePatch.serialize
        = (MAGIC ++ [1] ++ leBytes 4 samplePatch.chunk_size
            ++ leBytes 8 samplePatch.source_size
            ++ leBytes 8 samplePatch.source_hash ++ leBytes 8 samplePatch.target_size)
          ++ (samplePatch.instructions.map encodeInstruction).flatten ∧
      (MAGIC ++ [1] ++ leBytes 4 samplePatch.chunk_size
          ++ leBytes 8 samplePatch.source_size
          ++ leBytes 8 samplePatch.source_hash ++ leBytes 8 samplePatch.target_size).length
        = 33 ∧
      (∀ l : List Nat, l.take 4 ≠ MAGIC → Patch.deserialize l = none) ∧
      (∀ l : List Nat, l.take 4 = MAGIC → (l.drop 4).take 1 ≠ [1] →
        Patch.deserialize l = none) :=
  C7_serialize_round_trip samplePatch (by norm_num [samplePatch]) (by norm_num [samplePatch])
    (by norm_num [samplePatch]) (by norm_num [samplePatch])
    (by
      intro i hi
      simp only [samplePatch, List.mem_cons, List.mem_singleton] at hi
      rcases hi with h | h | h
      · subst h; exact ⟨by norm_num, by norm_num⟩
      · subst h; show ([7] : List Nat).length < 2 ^ 32; norm_num
      · simp at h)

/-- C6 amended: an INSERT whose declared length exceeds the remaining
    patch bytes is rejected by Patch::deserialize (read_exact of the data
    hits end of input), while PatchMetadata::parse accepts it, recording
    the declared length and the data offset: the cursor is moved past the
    end of the data and the next tag read simply ends the parse. -/
theorem C6_insert_length_overrun (cs ss sh ts n : Nat) (insts : List Instruction)
    (data : List Nat)
    (hcs : cs < 2 ^ 32) (hss : ss < 2 ^ 64) (hsh : sh < 2 ^ 64) (hts : ts < 2 ^ 64)
    (hwf : ∀ i ∈ insts, InstWF i) (hn : n < 2 ^ 32) (hd : data.length < n) :
    Patch.deserialize (headerBytes cs ss sh ts
        ++ ((insts.map encodeInstruction).flatten ++ (2 :: (leBytes 4 n ++ data)))) = none ∧
      PatchMetadata.parse (headerBytes cs ss sh ts
          ++ ((insts.map encodeInstruction).flatten ++ (2 :: (leBytes 4 n ++ data))))
        = some ⟨cs, ss, sh, ts,
            zEncoded insts 33
              ++ [.insert (33 + ((insts.map encodeInstruction).flatten).length + 5) n]⟩ := by
  have hph := parseHeader_headerBytes cs ss sh ts
    ((insts.map encodeInstruction).flatten ++ (2 :: (leBytes 4 n ++ data))) hcs hss hsh hts
  constructor
  · have hE : parseInstructionsE ((insts.map encodeInstruction).flatten
        ++ (2 :: (leBytes 4 n ++ data))) = none := by
      rw [parseInstructionsE_encodeAll insts hwf _,
        parseInstructionsE_overrun n data hn hd]
      rfl
    simp [Patch.deserialize, hph, hE]
  · have hZ : parseInstructionsZ ((insts.map encodeInstruction).flatten
        ++ (2 :: (leBytes 4 n ++ data))) 33
        = some (zEncoded insts 33
            ++ [.insert (33 + ((insts.map encodeInstruction).flatten).length + 5) n]) := by
      rw [parseInstructionsZ_encodeAll insts hwf _ 33,
        parseInstructionsZ_overrun n data _ hn hd]
      simp
    simp [PatchMetadata.parse, hph, hZ]

/-- Witness for the amended C6 with an empty instruction prefix. -/
theorem C6_insert_length_overrun_witness :
    Patch.deserialize (headerBytes 4 7 9 5
        ++ ((([] : List Instruction).map encodeInstruction).flatten
          ++ (2 :: (leBytes 4 5 ++ [65, 66])))) = none ∧
      PatchMetadata.parse (headerBytes 4 7 9 5
          ++ ((([] : List Instruction).map encodeInstruction).flatten
            ++ (2 :: (leBytes 4 5 ++ [65, 66]))))
        = some ⟨4, 7, 9, 5,
            zEncoded [] 33
              ++ [.insert
                  (33 + ((([] : List Instruction).map encodeInstruction).flatten).length + 5)
                  5]⟩ :=
  C6_insert_length_overrun 4 7 9 5 5 [] [65, 66] (by norm_num) (by norm_num) (by norm_num)
    (by norm_num) (by intro i hi; simp at hi) (by norm_num) (by norm_num)

/-- C6 as stated is false on the code: this concrete patch declares an
    INSERT of 5 bytes with only 2 present; Patch::deserialize rejects it,
    but PatchMetadata::parse succeeds, returning the overrunning INSERT. -/
theorem C6_insert_length_overrun_counterexample :
    Patch.deserialize (headerBytes 4 7 9 5 ++ (2 :: (leBytes 4 5 ++ [65, 66]))) = none ∧
      PatchMetadata.parse (headerBytes 4 7 9 5 ++ (2 :: (leBytes 4 5 ++ [65, 66])))
        = some ⟨4, 7, 9, 5, [.insert 38 5]⟩ := by
  have hph := parseHeader_headerBytes 4 7 9 5 (2 :: (leBytes 4 5 ++ [65, 66]))
    (by norm_num) (by norm_num) (by norm_num) (by norm_num)
  constructor
  · have hE := parseInstructionsE_overrun 5 [65, 66] (by norm_num) (by norm_num)
    simp [Patch.deserialize, hph, hE]
  · have hZ := parseInstructionsZ_overrun 5 [65, 66] 33 (by norm_num) (by norm_num)
    simp [PatchMetadata.parse, hph, hZ]

/-- ChunkBuffer (src/utils/buffer.rs). -/
structure ChunkBuffer where
  chunks : List (List Nat)
  total_size : Nat
deriving Repr, DecidableEq

/-- ChunkBuffer::new. -/
def ChunkBuffer.new : ChunkBuffer := ⟨[], 0⟩

/-- ChunkBuffer::push_slice. -/
def ChunkBuffer.push_slice (b : ChunkBuffer) (data : List Nat) : ChunkBuffer :=
  ⟨b.chunks ++ [data], b.total_size + data.length⟩

/-- The chunk scan loop of ChunkBuffer::read_at. -/
def readAtLoop (remaining startOffset currentOffset : Nat) (result : List Nat) :
    List (List Nat) → List Nat
  | [] => result
  | chunk :: rest =>
      if currentOffset + chunk.length ≤ startOffset then
        readAtLoop remaining startOffset (currentOffset + chunk.length) result rest
      else
        let chunkStart := if startOffset > currentOffset then startOffset - currentOffset else 0
        let bytesToRead := min remaining (chunk.length - chunkStart)
        let result1 := result ++ slice chunk chunkStart bytesToRead
        if remaining - bytesToRead = 0 then result1
        else readAtLoop (remaining - bytesToRead) (currentOffset + chunk.length)
          (currentOffset + chunk.length) result1 rest

/-- ChunkBuffer::read_at: None when the requested range crosses the end. -/
def ChunkBuffer.read_at (b : ChunkBuffer) (offset length : Nat) : Option (List Nat) :=
  if offset + length > b.total_size then none
  else some (readAtLoop length offset 0 [] b.chunks)

/-- PatchApplier (src/lib.rs).  The HashBuilder state is its running u64
    hash value. -/
structure PatchApplier where
  source_buffer : ChunkBuffer
  source_hasher : Nat
  patch_data : List Nat
  patch_loaded : Bool
  instructions : List ParsedInstruction
  current_instruction : Nat
  instruction_offset : Nat
  output_written : Nat
  target_size : Nat
  prepared : Bool
deriving Repr, DecidableEq

/-- PatchApplier::new. -/
def PatchApplier.new : PatchApplier :=
  ⟨ChunkBuffer.new, FNV_OFFSET, [], false, [], 0, 0, 0, 0, false⟩

/-- The length field of the instruction the cursor points at. -/
def currentInstrLength (ap : PatchApplier) : Nat :=
  match ap.instructions.getD ap.current_instruction (.copy 0 0) with
  | .copy _ length => length
  | .insert _ length => length

/-- The while loop of PatchApplier::next_output_chunk.  A COPY read that
    crosses the source end (read_at returning None) contributes no bytes:
    the if-let in the Rust code silently skips it and the cursor still
    advances.  For INSERT the Rust code indexes patch_data directly; the
    model reads the same range with the truncating slice. -/
def nextOutputLoop (ap : PatchApplier) (maxSize : Nat) (result : List Nat) :
    List Nat × PatchApplier :=
  if h : result.length < maxSize ∧ ap.current_instruction < ap.instructions.length then
    match hi : ap.instructions.getD ap.current_instruction (.copy 0 0) with
    | .copy offset length =>
        let bytesToCopy := min (length - ap.instruction_offset) (maxSize - result.length)
        let result1 :=
          match ap.source_buffer.read_at (offset + ap.instruction_offset) bytesToCopy with
          | some data => result ++ data
          | none => result
        let ap2 := if length ≤ ap.instruction_offset + bytesToCopy then
            { ap with current_instruction := ap.current_instruction + 1,
                      instruction_offset := 0 }
          else { ap with instruction_offset := ap.instruction_offset + bytesToCopy }
        nextOutputLoop ap2 maxSize result1
    | .insert patch_offset length =>
        let bytesToCopy := min (length - ap.instruction_offset) (maxSize - result.length)
        let result1 :=
          result ++ slice ap.patch_data (patch_offset + ap.instruction_offset) bytesToCopy
        let ap2 := if length ≤ ap.instruction_offset + bytesToCopy then
            { ap with current_instruction := ap.current_instruction + 1,
                      instruction_offset := 0 }
          else { ap with instruction_offset := ap.instruction_offset + bytesToCopy }
        nextOutputLoop ap2 maxSize result1
  else (result, ap)
termination_by (ap.instructions.length - ap.current_instruction,
  currentInstrLength ap - ap.instruction_offset)
decreasing_by
  · by_cases hc : length ≤ ap.instruction_offset
        + min (length - ap.instruction_offset) (maxSize - result.length)
    · rw [dif_pos hc]
      refine Prod.Lex.left _ _ ?_
      simp only
      omega
    · rw [dif_neg hc]
      refine Prod.Lex.right _ ?_
      simp only [currentInstrLength, hi]
      omega
  · by_cases hc : length ≤ ap.instruction_offset
        + min (length - ap.instruction_offset) (maxSize - result.length)
    · rw [dif_pos hc]
      refine Prod.Lex.left _ _ ?_
      simp only
      omega
    · rw [dif_neg hc]
      refine Prod.Lex.right _ ?_
      simp only [currentInstrLength, hi]
      omega

/-- PatchApplier::next_output_chunk. -/
def PatchApplier.next_output_chunk (ap : PatchApplier) (maxSize : Nat) :
    List Nat × PatchApplier :=
  if ap.prepared = false ∨ ap.instructions.length ≤ ap.current_instruction then ([], ap)
  else
    let r := nextOutputLoop ap maxSize []
    (r.1, { r.2 with output_written := r.2.output_written + r.1.length })

/-- An applier state as PatchApplier::prepare leaves it: instruction cursor
    at the start, nothing written yet. -/
def mkApplier (sb : ChunkBuffer) (pd : List Nat)
    (insts : List ParsedInstruction) : PatchApplier :=
  { source_buffer := sb, source_hasher := FNV_OFFSET, patch_data := pd,
    patch_loaded := true, instructions := insts, current_instruction := 0,
    instruction_offset := 0, output_written := 0, target_size := 0,
    prepared := true }

/-- A COPY whose whole range lies beyond the buffered source makes read_at
    return None, so the loop appends nothing, advances the cursor past the
    instruction, and next_output_chunk returns normally with no bytes and
    no error. -/
theorem next_output_chunk_oob_copy (sb : ChunkBuffer) (pd : List Nat)
    (off len maxSize : Nat) (hoob : sb.total_size < off + len) (hlen : 1 ≤ len)
    (hmax : len ≤ maxSize) :
    (mkApplier sb pd [ParsedInstruction.copy off len]).next_output_chunk maxSize
      = ([], { mkApplier sb pd [ParsedInstruction.copy off len] with
                current_instruction := 1 }) := by
  rw [PatchApplier.next_output_chunk, if_neg (by simp [mkApplier])]
  rw [nextOutputLoop]
  rw [dif_pos (by refine ⟨by simp; omega, by simp [mkApplier]⟩)]
  simp only [mkApplier, List.getD_cons_zero, List.length_nil, Nat.sub_zero,
    Nat.zero_add, Nat.add_zero, Nat.min_eq_left hmax]
  rw [if_pos (le_refl len)]
  rw [ChunkBuffer.read_at, if_pos (by omega)]
  rw [nextOutputLoop]
  rw [dif_neg (by simp)]
  simp
/-- C3: the eager applier rejects out-of-bounds COPYs as claimed, but the
    streaming applier does not surface any error: a COPY whose range
    crosses the buffered source end makes read_at return None inside
    next_output_chunk, and the if-let silently drops the bytes while the
    cursor advances past the instruction, so the call returns normally
    with no output for that COPY.  The second conjunct exhibits the exact
    normal return, refuting the surfaces-the-error half of the claim. -/
theorem C3_copy_out_of_bounds (source : List Nat) (p : Patch)
    (pre post : List Instruction) (off len : Nat)
    (hsz : p.source_size = source.length) (hh : p.source_hash = calculate_hash source)
    (hinsts : p.instructions = pre ++ .copy off len :: post)
    (hpre : ∀ i ∈ pre, instrOk source i) (hoob : off + len > source.length)
    (sb : ChunkBuffer) (pd : List Nat) (soff slen maxSize : Nat)
    (hsoob : sb.total_size < soff + slen) (hslen : 1 ≤ slen) (hsmax : slen ≤ maxSize) :
    apply_patch source p = .error (.copyOutOfBounds pre.length off len source.length) ∧
      (mkApplier sb pd [ParsedInstruction.copy soff slen]).next_output_chunk maxSize
        = ([], { mkApplier sb pd [ParsedInstruction.copy soff slen] with
                  current_instruction := 1 }) :=
  ⟨apply_patch_oob source p pre post off len hsz hh hinsts hpre hoob,
   next_output_chunk_oob_copy sb pd soff slen maxSize hsoob hslen hsmax⟩

/-- Concrete instance of C3: the eager applier reports the out-of-bounds
    COPY; the streaming applier, fed the same kind of instruction past a
    5-byte source, returns empty output and an advanced cursor. -/
theorem C3_copy_out_of_bounds_witness :
    apply_patch [1, 2, 3]
        ⟨4, 3, calculate_hash [1, 2, 3], 5, [Instruction.copy 0 100]⟩
        = .error (.copyOutOfBounds 0 0 100 3) ∧
      (mkApplier (ChunkBuffer.new.push_slice [104, 101, 108, 108, 111]) []
          [ParsedInstruction.copy 5 2]).next_output_chunk 100
        = ([], { mkApplier (ChunkBuffer.new.push_slice [104, 101, 108, 108, 111]) []
                  [ParsedInstruction.copy 5 2] with current_instruction := 1 }) :=
  C3_copy_out_of_bounds [1, 2, 3]
    ⟨4, 3, calculate_hash [1, 2, 3], 5, [Instruction.copy 0 100]⟩
    [] [] 0 100 rfl rfl rfl (by simp) (by decide)
    (ChunkBuffer.new.push_slice [104, 101, 108, 108, 111]) [] 5 2 100
    (by decide) (by decide) (by decide)

/-- The claimed behaviour is refuted on a concrete run: applying
    COPY{offset 0, length 100} against a 5-byte buffered source,
    next_output_chunk(200) returns normally with an empty byte vector and
    the cursor moved past the COPY; no error value exists in its return
    type, so no error is surfaced to the caller. -/
theorem C3_copy_out_of_bounds_counterexample :
    (mkApplier (ChunkBuffer.new.push_slice [104, 101, 108, 108, 111]) []
        [ParsedInstruction.copy 0 100]).next_output_chunk 200
      = ([], { mkApplier (ChunkBuffer.new.push_slice [104, 101, 108, 108, 111]) []
                [ParsedInstruction.copy 0 100] with current_instruction := 1 }) :=
  next_output_chunk_oob_copy (ChunkBuffer.new.push_slice [104, 101, 108, 108, 111])
    [] 0 100 200 (by decide) (by decide) (by decide)
/-- The PatchBuilder state read by flush_output (src/lib.rs): the running
    FNV-1a value of the source hasher, the byte counters, the chunk size,
    the serialized output buffer, and the header flag.  The remaining
    builder fields (block index, streaming diff, target hasher, finalized
    flags) are not read by flush_output and are omitted. -/
structure PatchBuilder where
  source_hasher : Nat
  source_size : Nat
  target_total_size : Nat
  chunk_size : Nat
  output_buffer : List Nat
  header_written : Bool
deriving Repr, DecidableEq

/-- PatchBuilder::new, restricted to the modelled fields: default chunk
    size 4096, fresh FNV-1a hasher, header not yet written. -/
def PatchBuilder.new : PatchBuilder :=
  ⟨FNV_OFFSET, 0, 0, 4096, [], false⟩

/-- PatchBuilder::flush_output.  On the first call the 33-byte header goes
    into result, after which the Rust body computes
    max_size - result.len() in usize; for max_size < result.len() that
    subtraction underflows (a panic in debug builds, a wrapped length in
    release builds), modelled here as none. -/
def PatchBuilder.flush_output (b : PatchBuilder) (max_size : Nat) :
    Option (List Nat × PatchBuilder) :=
  let result := if b.header_written then [] else
    headerBytes b.chunk_size b.source_size b.source_hasher b.target_total_size
  let b1 := { b with header_written := true }
  if max_size < result.length then none
  else
    let bytes_to_take := min (max_size - result.length) b1.output_buffer.length
    some (result ++ b1.output_buffer.take bytes_to_take,
      { b1 with output_buffer := b1.output_buffer.drop bytes_to_take })

/-- Any call with max_size below the 33-byte header length, made before
    the header has been written, hits the usize underflow. -/
theorem flush_output_underflow (b : PatchBuilder) (max_size : Nat)
    (hw : b.header_written = false) (hmax : max_size < 33) :
    b.flush_output max_size = none := by
  rw [PatchBuilder.flush_output]
  simp only [hw, Bool.false_eq_true, if_false]
  rw [if_pos (by rw [headerBytes_length]; omega)]
/-- C8 is violated by the code: on a fresh builder the first flush_output
    call puts the 33-byte header into result and then computes
    max_size - result.len() in usize, so any max_size below 33 (here 10)
    makes that subtraction underflow — a panic in debug builds, and in
    release builds a wrapped count that lets the full 33-byte header
    escape the max_size bound.  The model returns none for the underflow,
    refuting the claim that every call returns normally with at most
    max_size bytes. -/
theorem C8_flush_output_underflow :
    PatchBuilder.new.flush_output 10 = none :=
  flush_output_underflow PatchBuilder.new 10 rfl (by omega)
end Patchly
